import Mathlib

/-!
Verification development for the X4FProjector core.

This file gives a shallow embedding, in Lean 4, of the core subsystems of
the X4FProjector repository and proves properties of that embedding:

* `X4F.Dat` — the bounded region reader `DatGameFile`
  (`src/file_loaders.py`).
* `X4F.Lang` — the template string resolver `LanguageResolver`
  (`src/lang.py`).
* `X4F.Cat` — the archive index loader and layered virtual filesystem
  `CatFileLoader` (`src/file_loaders.py`).
* `X4F.MacrosDB` — the reference-closure resolver `MacroDB`
  (`src/macros.py`).

Python bytes are modelled as `List Nat`, Python dicts as insertion-ordered
association lists with Python `dict` semantics (assignment replaces the
value of the first matching key in place, otherwise appends), Python sets
of strings as duplicate-free lists, exceptions as `Option`/`Except`, and
`while` loops either as structural recursion on an explicit fuel argument
(`none` meaning the loop has not exited within that many iterations) or as
well-founded recursion when the source loop always terminates.
-/

namespace X4F

namespace Dat

/-- Underlying `.dat` file handle as wrapped by `DatGameFile`
(`src/file_loaders.py`): the byte content together with the current file
position.  `read n` returns up to `n` bytes starting at `pos` and advances
`pos` by the number of bytes actually returned; reading at or past the end
of the data returns no bytes, exactly like a Python binary file. -/
structure UFile where
  data : List Nat
  pos : Nat
deriving Repr, DecidableEq

/-- One `dat_file.read(n)` call on the underlying file. -/
def UFile.read (f : UFile) (n : Nat) : List Nat × UFile :=
  let chunk := (f.data.drop f.pos).take n
  (chunk, { f with pos := f.pos + chunk.length })

/-- `DatGameFile` (`src/file_loaders.py`): a wrapper over a file object that
restricts operations to the window `[start, stop)` of the underlying file.
The source calls the upper bound `end`, which is a reserved word in Lean. -/
structure DatGameFile where
  dat : UFile
  start : Nat
  stop : Nat
deriving Repr, DecidableEq

/-- `DatGameFile.__init__`: stores `start = offset`, `end = offset + size`
and seeks the underlying file to `start`. -/
def mkDatGameFile (dat : UFile) (offset size : Nat) : DatGameFile :=
  { dat := { dat with pos := offset }, start := offset, stop := offset + size }

/-- `DatGameFile._clamp_op`: `max_size = max(0, self.end - self.dat_file.tell())`
(natural subtraction), a negative requested size means "until EOF" and is
clamped to `max_size`, otherwise the request is clamped by `min`. -/
def DatGameFile.clampOp (f : DatGameFile) (size : Int) : Nat :=
  let maxSize := f.stop - f.dat.pos
  if size < 0 then maxSize else min size.toNat maxSize

/-- `DatGameFile.read`: read from the game file, clamped to the window. -/
def DatGameFile.read (f : DatGameFile) (size : Int) : List Nat × DatGameFile :=
  let (chunk, dat') := f.dat.read (f.clampOp size)
  (chunk, { f with dat := dat' })

/-- The `while len(buf) < size: buf += self.read(size - len(buf))` loop of
`DatGameFile.readall`, with explicit fuel.  `none` means the loop has not
exited within `fuel` iterations. -/
def readallLoop : Nat → List Nat → Nat → DatGameFile → Option (List Nat × DatGameFile)
  | fuel, buf, size, f =>
    if buf.length < size then
      match fuel with
      | 0 => none
      | fuel' + 1 =>
        let (chunk, f') := f.read ((size : Int) - (buf.length : Int))
        readallLoop fuel' (buf ++ chunk) size f'
    else some (buf, f)

/-- `DatGameFile.readall`: `size = self._clamp_op(-1)`, one initial read,
then the accumulation loop. -/
def DatGameFile.readall (fuel : Nat) (f : DatGameFile) : Option (List Nat × DatGameFile) :=
  let size := f.clampOp (-1)
  let (buf, f') := f.read size
  readallLoop fuel buf size f'

end Dat

namespace Lang

/-- Python regex `\s` restricted to the ASCII range (the localisation
inputs of interest are ASCII; the unicode white-space characters Python
would additionally accept do not occur in them). -/
def isSpaceRe (c : Char) : Bool :=
  c = ' ' || c = '\t' || c = '\n' || c = '\r' || c = '\x0b' || c = '\x0c'

/-- Split a character list into its longest `\s*` prefix and the rest. -/
def skipSpaces : List Char → List Char × List Char
  | [] => ([], [])
  | c :: cs =>
    if isSpaceRe c then
      let (s, r) := skipSpaces cs
      (c :: s, r)
    else ([], c :: cs)

/-- Split a character list into its longest `\d*` prefix and the rest
(ASCII digits, as matched by `\d` on the inputs of interest). -/
def takeDigits : List Char → List Char × List Char
  | [] => ([], [])
  | c :: cs =>
    if c.isDigit then
      let (d, r) := takeDigits cs
      (c :: d, r)
    else ([], c :: cs)

/-- Match the field regex `\{\s*(\d+)\s*,\s*(\d+)\s*\}` of
`LanguageResolver.resolve_string` (`src/lang.py`) at the head of the
input.  On success returns the two captured digit groups, the whole
matched text (`match[0]`, needed for the unresolved-field fallback) and
the remaining input after the match. -/
def tryField : List Char → Option (String × String × String × List Char)
  | '{' :: s0 =>
    let (w1, s1) := skipSpaces s0
    let (d1, s2) := takeDigits s1
    if d1.isEmpty then none
    else
      let (w2, s3) := skipSpaces s2
      match s3 with
      | ',' :: s4 =>
        let (w3, s5) := skipSpaces s4
        let (d2, s6) := takeDigits s5
        if d2.isEmpty then none
        else
          let (w4, s7) := skipSpaces s6
          match s7 with
          | '}' :: s8 =>
            some (⟨d1⟩, ⟨d2⟩,
              ⟨'{' :: (w1 ++ d1 ++ w2 ++ [','] ++ w3 ++ d2 ++ w4 ++ ['}'])⟩, s8)
          | _ => none
      | _ => none
  | _ => none

/-- One pass of `re.sub(r'\{\s*(\d+)\s*,\s*(\d+)\s*\}', resolve_field, text)`:
scan left to right, replace every leftmost field match by
`lookupF page text matchedText`, never rescanning replacement output within
the pass.  Structural fuel; `subFields` supplies enough fuel (each step
consumes at least one input character). -/
def subFieldsF (lookupF : String → String → String → String) :
    Nat → List Char → List Char
  | 0, s => s
  | fuel + 1, s =>
    match s with
    | [] => []
    | c :: cs =>
      match tryField (c :: cs) with
      | some (p, t, m, rest) => (lookupF p t m).data ++ subFieldsF lookupF fuel rest
      | none => c :: subFieldsF lookupF fuel cs

def subFields (lookupF : String → String → String → String) (s : List Char) : List Char :=
  subFieldsF lookupF s.length s

/-- Find the end of a comment for the regex `(?<!\\)\(.*?(?<!\\)\)`: given
the character preceding the current position, scan for the first `)` whose
preceding character is not `\`; `.` does not match a newline, so reaching
`\n` means the comment regex cannot match from this opening parenthesis.
Returns the remaining input after the closing parenthesis. -/
def findClose : Char → List Char → Option (List Char)
  | _, [] => none
  | prev, c :: cs =>
    if c = '\n' then none
    else if c = ')' && prev ≠ '\\' then some cs
    else findClose c cs

/-- One pass of `re.sub(r'(?<!\\)\(.*?(?<!\\)\)', '', text)` as applied by
`resolve_field` to each looked-up text: remove every comment `( ... )`
whose parentheses are not escaped by a preceding backslash.  `prev` is the
character preceding the scan position in the original string (`none` at
the start).  Structural fuel; `stripComments` supplies enough. -/
def stripCommentsF : Nat → Option Char → List Char → List Char
  | 0, _, s => s
  | fuel + 1, prev, s =>
    match s with
    | [] => []
    | c :: cs =>
      if c = '(' && prev ≠ some '\\' then
        match findClose c cs with
        | some rest => stripCommentsF fuel (some ')') rest
        | none => c :: stripCommentsF fuel (some c) cs
      else c :: stripCommentsF fuel (some c) cs

def stripComments (s : List Char) : List Char :=
  stripCommentsF s.length none s

/-- `re.sub(r'\\(.)', r'\1', text)`: drop every backslash that is followed
by a (non-newline) character, keeping the character. -/
def unescape : List Char → List Char
  | '\\' :: c :: cs => if c = '\n' then '\\' :: unescape (c :: cs) else c :: unescape cs
  | c :: cs => c :: unescape cs
  | [] => []

/-- A parsed localisation document: the list of `<page id=..>` nodes in
document order, each carrying its `<t id=..>` children with their text.
Ids are kept as strings, matching the string comparison performed by the
xpath `./page[@id='P']/t[@id='T']`. -/
def LangTree := List (String × List (String × String))

/-- The xpath lookup of `resolve_field`: all `t` nodes with the given id
inside all `page` nodes with the given id, in document order; the code
uses the first one (`text_nodes[0]`). -/
def lookupText (tree : LangTree) (page tid : String) : Option String :=
  (((tree.filter (fun p => p.1 = page)).map
      (fun p => p.2.filter (fun t => t.1 = tid))).flatten.head?).map (·.2)

/-- `resolve_field` (`src/lang.py`): look the `{page,text}` field up; if the
lookup fails, return the matched field text unchanged; otherwise return
the looked-up text with parenthetical comments removed.  Note the comment
removal happens here, per lookup, inside the substitution pass. -/
def resolveField (tree : LangTree) (page tid matched : String) : String :=
  match lookupText tree page tid with
  | none => matched
  | some text => ⟨stripComments text.data⟩

/-- The `while text_new != text_old` fixed-point loop of `resolve_string`:
apply the field-substitution pass until it makes no change.  `none` means
no fixed point was reached within `fuel` passes (the Python loop would
still be running). -/
def substLoop (tree : LangTree) : Nat → List Char → Option (List Char)
  | 0, _ => none
  | fuel + 1, t =>
    let t' := subFields (resolveField tree) t
    if t' = t then some t else substLoop tree fuel t'

/-- `LanguageResolver` state: loaded language documents keyed by name, and
the default language (`None` until the first load). -/
structure LanguageResolver where
  langTrees : List (String × LangTree)
  defaultLang : Option String

/-- `LanguageResolver.resolve_string` (`src/lang.py`).  The result is
`none` when the substitution loop has not reached its fixed point within
`fuel` passes, `some (.error msg)` for the `KeyError` raised on an
unloaded language, and `some (.ok text)` otherwise.  An empty (falsy)
template is returned unchanged before the language is even examined. -/
def LanguageResolver.resolveString (r : LanguageResolver) (fuel : Nat)
    (template : String) (langName : Option String) (strip : Bool) :
    Option (Except String String) :=
  if template = "" then some (.ok template)
  else
    let chosen := match langName with
      | some l => some l
      | none => r.defaultLang
    match chosen with
    | none => some (.error "Language None not loaded")
    | some l =>
      match r.langTrees.lookup l with
      | none => some (.error ("Language " ++ l ++ " not loaded"))
      | some tree =>
        (substLoop tree fuel template.data).map (fun t =>
          let u : String := ⟨unescape t⟩
          .ok (if strip then u.trim else u))

/-- Localisation document of the specification's concrete
template-resolution example: page 10 with text 20 = "Alpha" and
text 21 = "Beta (x)". -/
def exampleTree : LangTree := [("10", [("20", "Alpha"), ("21", "Beta (x)")])]

/-- A resolver with the example document loaded as language "en",
which is therefore also the default language. -/
def exampleResolver : LanguageResolver := ⟨[("en", exampleTree)], some "en"⟩

/-- The example template of the specification. -/
def exampleTemplate : String := "Ship {10,20} and {10,21}(ignored) end"

/-- What the code actually produces for the example template: the
comment `(x)` inside the looked-up text for field `{10,21}` is removed
(comment removal runs per lookup, inside `resolve_field`), but the
comment `(ignored)` written directly in the template survives, because
no comment-removal pass is ever applied to the substituted template
itself. -/
def exampleResolved : String := "Ship Alpha and Beta (ignored) end"

end Lang

namespace Cat

/-- Structural rendering of `str.split(sep)` with a one-character
separator: cut at every character satisfying `p`, keeping empty pieces
(the empty string splits to `[""]`), exactly like Python's
`str.split('/')` / `str.split(' ')`.  Implemented over the character
list so concrete instances evaluate inside the kernel. -/
def splitCharsAux (p : Char → Bool) : List Char → List Char → List String
  | [], acc => [⟨acc.reverse⟩]
  | c :: cs, acc =>
    if p c then ⟨acc.reverse⟩ :: splitCharsAux p cs []
    else splitCharsAux p cs (c :: acc)

def splitStr (s : String) (p : Char → Bool) : List String :=
  splitCharsAux p s.data []

/-- `str.lower()` over the character list (ASCII case mapping; the game
paths of interest are ASCII). -/
def lowerStr (s : String) : String := ⟨s.data.map Char.toLower⟩

/-- `' '.join(parts)` over character lists, used to rebuild the left part
of a right-split. -/
def joinSpaceChars : List String → List Char
  | [] => []
  | [s] => s.data
  | s :: rest => s.data ++ ' ' :: joinSpaceChars rest

/-- `int(s)` restricted to plain digit strings (Python's `int()` also
accepts signs, underscores and surrounding whitespace, which no claim
depends on); `none` models the `ValueError`. -/
def toNatQ (s : String) : Option Nat :=
  if s.data ≠ [] ∧ s.data.all Char.isDigit then
    some (s.data.foldl (fun n c => n * 10 + (c.toNat - 48)) 0)
  else none

/-- `split_game_path` (`src/file_loaders.py`): split on `/` and filter out
the empty parts caused by doubled slashes. -/
def splitGamePath (path : String) : List String :=
  (splitStr path (· = '/')).filter (· ≠ "")

/-- The `CatEntry` namedtuple: one logical file inside a `.dat` blob. -/
structure CatEntry where
  datPath : String
  name : String
  size : Nat
  offset : Nat
deriving Repr, DecidableEq

/-- A node of the game-file tree: a `DirNode` (children keyed by name, in
insertion order, unique keys), a `CatEntry` leaf, or a nested
`CatFileLoader` mounted as an extension overlay.  The nested loader is
represented by its file tree; its own pending archive stack is not
modelled (lazy loading only ever inserts additional children into a tree
and never changes the kind of an existing node, see `insertEntry`), which
is all the resolution theorems below depend on. -/
inductive GNode where
  | dir (children : List (String × GNode))
  | file (e : CatEntry)
  | loader (tree : GNode)

/-- `CatFileLoader._find_entry` (`src/file_loaders.py`): walk the tree
segment by segment; a `CatEntry` met before the segments are exhausted
fails (a file cannot contain files), a nested loader delegates the
remaining segments to the overlay's tree, a missing child fails. -/
def findEntry : GNode → List String → Option GNode
  | k, [] => some k
  | GNode.file _, _ :: _ => none
  | GNode.loader t, p :: ps => findEntry t (p :: ps)
  | GNode.dir cs, p :: ps =>
    match cs.lookup p with
    | some c => findEntry c ps
    | none => none
termination_by k parts => (parts.length, sizeOf k)
decreasing_by
  · exact Prod.Lex.right _ (by simp)
  · exact Prod.Lex.left _ _ (by simp)

/-- `CatFileLoader.file_exists`: true exactly when `_find_entry` resolved
the (lower-cased, slash-split) path to a `CatEntry`. -/
def fileExists (root : GNode) (path : String) : Bool :=
  match findEntry root (splitGamePath (lowerStr path)) with
  | some (GNode.file _) => true
  | _ => false

/-- `CatFileLoader.open_file`: empty paths and paths not resolving to a
`CatEntry` raise `ValueError`; otherwise the entry is opened (the source
wraps it into a `DatGameFile` over the entry's dat file, offset and size —
here the resolved entry itself is returned). -/
def openFile (root : GNode) (path : String) : Except String CatEntry :=
  if path = "" then Except.error "Empty path"
  else
    match findEntry root (splitGamePath (lowerStr path)) with
    | some (GNode.file e) => Except.ok e
    | none => Except.error "path is not a file"
    | some _ => Except.error "path is not a file, but another node type"

/-- `line.lower().rsplit(' ', 3)`: split on single spaces from the right,
at most three splits, so the leftmost field keeps any interior spaces. -/
def rsplitSpace3 (s : String) : List String :=
  let parts := splitStr s (· = ' ')
  if parts.length ≤ 4 then parts
  else
    let k := parts.length - 3
    (⟨joinSpaceChars (parts.take k)⟩ : String) :: parts.drop k

/-- Failure modes of the `.cat` parse phase: a line that does not split
into 4 fields (the `return False` of `_load_cat_file`), or a size field
`int()` cannot parse (a `ValueError` escaping the method). -/
inductive ParseErr where
  | badSplit
  | badInt
deriving Repr, DecidableEq

/-- One parsed index entry before tree insertion: the directory segments
and the `CatEntry` carrying name, declared size and derived offset. -/
structure RawEntry where
  dirs : List String
  entry : CatEntry
deriving Repr, DecidableEq

/-- The parse phase of `CatFileLoader._load_cat_file`
(`src/file_loaders.py`): process lines in order, keep a running byte
offset that every line's declared size advances (even lines whose game
path is empty, which are skipped with a log and produce no entry), and
fail the whole file on the first malformed line.  Sizes are parsed with
`String.toNat?`; Python's `int()` accepts slightly more (signs,
underscores, surrounding whitespace), which no claim depends on. -/
def parseCatLines (datPath : String) : List String → Nat → Except ParseErr (List RawEntry)
  | [], _ => Except.ok []
  | line :: rest, fileOffset =>
    if line = "" then parseCatLines datPath rest fileOffset
    else
      match rsplitSpace3 (lowerStr line) with
      | [p0, p1, _, _] =>
        match toNatQ p1 with
        | none => Except.error ParseErr.badInt
        | some size =>
          let gamePath := splitGamePath p0
          if gamePath.isEmpty then parseCatLines datPath rest (fileOffset + size)
          else
            match parseCatLines datPath rest (fileOffset + size) with
            | Except.error e => Except.error e
            | Except.ok tail =>
              Except.ok ({ dirs := gamePath.dropLast,
                           entry := ⟨datPath, gamePath.getLastD "", size, fileOffset⟩ } :: tail)
      | _ => Except.error ParseErr.badSplit

/-- Replace the value stored under the first occurrence of a key, keeping
its position — the pure rendering of mutating a child object in place. -/
def assocReplace (cs : List (String × GNode)) (k : String) (v : GNode) :
    List (String × GNode) :=
  match cs with
  | [] => []
  | (k', v') :: rest => if k' = k then (k', v) :: rest else (k', v') :: assocReplace rest k v

/-- The tree-insertion loop of `_load_cat_file` for a single entry:
descend along the directory segments, creating missing `DirNode`s, then
register the entry under its file name only if that name is not already
a child.  Descending into a non-directory node raises `AttributeError`
in the source (`CatEntry`/`CatFileLoader` have no `children`); this is
the `.error` result, which carries the tree as mutated so far (created
intermediate directories stay attached). -/
def insertEntry : GNode → List String → CatEntry → Except GNode GNode
  | GNode.dir cs, [], e =>
    Except.ok (GNode.dir
      (if (cs.lookup e.name).isSome then cs else cs ++ [(e.name, GNode.file e)]))
  | GNode.dir cs, d :: ds, e =>
    match cs.lookup d with
    | some child =>
      match insertEntry child ds e with
      | Except.ok c' => Except.ok (GNode.dir (assocReplace cs d c'))
      | Except.error c' => Except.error (GNode.dir (assocReplace cs d c'))
    | none =>
      match insertEntry (GNode.dir []) ds e with
      | Except.ok c' => Except.ok (GNode.dir (cs ++ [(d, c')]))
      | Except.error c' => Except.error (GNode.dir (cs ++ [(d, c')]))
  | k, _, _ => Except.error k

/-- The insertion loop of `_load_cat_file` over all parsed entries. -/
def insertEntries (t : GNode) : List RawEntry → Except GNode GNode
  | [] => Except.ok t
  | r :: rest =>
    match insertEntry t r.dirs r.entry with
    | Except.ok t' => insertEntries t' rest
    | Except.error t' => Except.error t'

/-- One recorded archive pair: the `.cat` path, the `.dat` path, and the
text lines of the `.cat` file. -/
structure DataFile where
  catPath : String
  datPath : String
  lines : List String

/-- `CatFileLoader` state: the file tree, the pending archive pairs
(consumed from the tail, i.e. the highest-numbered first), and the set of
already loaded `.cat` paths. -/
structure CatState where
  fileTree : GNode
  dataFiles : List DataFile
  loaded : List String

/-- Outcome of `_load_cat_file`: success with the new tree and loaded set;
`malformed` (the `return False` on a bad line — state untouched);
`intError` (a `ValueError` from `int()` escaping during the parse phase —
state untouched); or `crashed` (an `AttributeError` escaping from the
insertion loop, with the partially updated tree). -/
inductive CatLoadResult where
  | success (tree : GNode) (loaded : List String)
  | malformed
  | intError
  | crashed (tree : GNode)

/-- `CatFileLoader._load_cat_file`: parse all lines first (so a malformed
file changes nothing), then insert the entries, then record the `.cat`
path as loaded. -/
def loadCatFile (st : CatState) (catPath datPath : String) (lines : List String) :
    CatLoadResult :=
  match parseCatLines datPath lines 0 with
  | Except.error ParseErr.badSplit => CatLoadResult.malformed
  | Except.error ParseErr.badInt => CatLoadResult.intError
  | Except.ok entries =>
    match insertEntries st.fileTree entries with
    | Except.ok t' =>
      CatLoadResult.success t'
        (if st.loaded.contains catPath then st.loaded else st.loaded ++ [catPath])
    | Except.error t' => CatLoadResult.crashed t'

/-- The tree after interpreting a `_load_cat_file` outcome against the
state it ran on. -/
def CatLoadResult.finalTree (st : CatState) : CatLoadResult → GNode
  | CatLoadResult.success t _ => t
  | CatLoadResult.crashed t => t
  | _ => st.fileTree

/-- The loaded set after interpreting a `_load_cat_file` outcome. -/
def CatLoadResult.finalLoaded (st : CatState) : CatLoadResult → List String
  | CatLoadResult.success _ l => l
  | _ => st.loaded

/-- `CatFileLoader._load_next_cat_file`: pop archive pairs off the tail of
`data_files` until one loads successfully (`true`) or none remain
(`false`); already loaded `.cat` paths are skipped, malformed files are
skipped, and an exception escaping `_load_cat_file` propagates
(`.error`, carrying the state at that point).  The source's `while` loop
pops one pair per iteration, so it performs at most `len(data_files)`
iterations; this is rendered as structural fuel (`none` = fuel exhausted),
and the wrapper `loadNextCat` supplies `length + 1` fuel, which a theorem
below proves always suffices. -/
def loadNextCatF : Nat → CatState → Option (Except CatState (CatState × Bool))
  | 0, _ => none
  | fuel + 1, st =>
    match st.dataFiles.getLast? with
    | none => some (Except.ok (st, false))
    | some df =>
      if st.loaded.contains df.catPath then
        loadNextCatF fuel { st with dataFiles := st.dataFiles.dropLast }
      else
        match loadCatFile { st with dataFiles := st.dataFiles.dropLast }
            df.catPath df.datPath df.lines with
        | CatLoadResult.success t l =>
          some (Except.ok
            ({ fileTree := t, dataFiles := st.dataFiles.dropLast, loaded := l }, true))
        | CatLoadResult.malformed =>
          loadNextCatF fuel { st with dataFiles := st.dataFiles.dropLast }
        | CatLoadResult.intError =>
          some (Except.error { st with dataFiles := st.dataFiles.dropLast })
        | CatLoadResult.crashed t =>
          some (Except.error
            { fileTree := t, dataFiles := st.dataFiles.dropLast, loaded := st.loaded })

def loadNextCat (st : CatState) : Option (Except CatState (CatState × Bool)) :=
  loadNextCatF (st.dataFiles.length + 1) st

/-- The `while self._load_next_cat_file(): pass` loop (as in `list_files`),
with fuel; every successful `true` iteration strictly shrinks the pending
stack, so the `dataFiles.length + 1` fuel of `loadAllCats` suffices. -/
def loadAllCatsF : Nat → CatState → Option (Except CatState CatState)
  | 0, _ => none
  | fuel + 1, st =>
    match loadNextCat st with
    | none => none
    | some (Except.error s) => some (Except.error s)
    | some (Except.ok (st', true)) => loadAllCatsF fuel st'
    | some (Except.ok (st', false)) => some (Except.ok st')

/-- Load every remaining archive pair of the state. -/
def loadAllCats (st : CatState) : Option (Except CatState CatState) :=
  loadAllCatsF (st.dataFiles.length + 1) st

/-- Validity of one index line, in the sense of the specification's
"sequence of valid index lines": nonempty, right-splits into exactly four
fields, carries a nonempty game path and a parseable size. -/
def ValidLine (line : String) : Prop :=
  line ≠ "" ∧
  (rsplitSpace3 (lowerStr line)).length = 4 ∧
  splitGamePath ((rsplitSpace3 (lowerStr line)).getD 0 "") ≠ [] ∧
  (toNatQ ((rsplitSpace3 (lowerStr line)).getD 1 "")).isSome = true

instance (line : String) : Decidable (ValidLine line) := by
  unfold ValidLine
  infer_instance

/-- Concrete archive entry examples: the same game path `assets/ship.xml`
as provided by the higher-priority archive pair 02 and by the
lower-priority pair 01. -/
def entry02W : CatEntry := ⟨"02.dat", "ship.xml", 5, 0⟩

def entry01W : CatEntry := ⟨"01.dat", "ship.xml", 7, 0⟩

/-- The file tree after pair 02 (the higher-priority archive) was loaded. -/
def tree02W : GNode :=
  GNode.dir [("assets", GNode.dir [("ship.xml", GNode.file entry02W)])]

/-- The still-pending lower-priority archive pair 01, defining the same
game path. -/
def cat01W : DataFile := ⟨"01.cat", "01.dat", ["assets/ship.xml 7 t h"]⟩

/-- Loader state between the two loads: 02 loaded, 01 still pending. -/
def stW : CatState := ⟨tree02W, [cat01W], ["02.cat"]⟩

/-- A tree with a file, a plain directory and a mounted extension overlay,
used to exercise the `file_exists`/`open_file` dispatch. -/
def rootW : GNode :=
  GNode.dir
    [("sub", GNode.dir [("f.xml", GNode.file entry01W)]),
     ("extensions", GNode.dir [("mod1", GNode.loader (GNode.dir []))])]

/-- An index file whose second line does not split into 4 fields. -/
def linesC5W : List String := ["assets/a.xml 3 t h", "justonefield"]

/-- A loader state with an empty tree and nothing loaded. -/
def stC5W : CatState := ⟨GNode.dir [], [], []⟩

/-- Valid index lines one of which declares size 0: used to refute the
"strictly increasing windows" part of C8. -/
def linesC8W : List String := ["a 0 t h", "b 5 t h"]

end Cat

namespace MacrosDB

/-- The `Macro` record of `src/macros.py`: name, type (class), connection
list (pairs of connection id and referenced macro id, in parse order) and
the parsed properties dict. -/
structure MacroRec where
  name : String
  type : String
  connections : List (String × String)
  properties : List (String × String)
deriving Repr, DecidableEq

/-- Python dict assignment `d[k] = v` over an insertion-ordered
association list: replace the value of the first occurrence of the key in
place, otherwise append the new binding. -/
def assocSet {α : Type _} : List (String × α) → String → α → List (String × α)
  | [], k, v => [(k, v)]
  | (k', v') :: rest, k, v =>
    if k' = k then (k', v) :: rest else (k', v') :: assocSet rest k v

/-- Python `d.update(e)`: assign every pair of `e` into `d`, in order. -/
def dictUpdate (d e : List (String × String)) : List (String × String) :=
  e.foldl (fun acc kv => assocSet acc kv.1 kv.2) d

/-- Python `set.add` over a duplicate-free list (insertion order kept,
standing in for the unordered Python set; `_resolve_step` compares the
sets by membership, not order). -/
def addDep (deps : List String) (name : String) : List String :=
  if deps.contains name then deps else deps ++ [name]

/-- Python `set.discard`. -/
def removeDep (deps : List String) (name : String) : List String :=
  deps.filter (fun d => d ≠ name)

/-- One `<connection ref=..>` node selected by the xpath
`./connections/connection[@ref]`: its `ref` attribute and the `ref`
attributes of its `./macro[@ref]` children. -/
structure ConnNode where
  ref : String
  macroRefs : List String
deriving Repr, DecidableEq

/-- One `./macro[@name][@class]` node of a game document.  `propNodes`
are the `./properties` children as opaque blobs handed to the macro
parser function; `compRefs` are the `ref` attributes of the
`./component` children. -/
structure MacroNode where
  name : String
  cls : String
  propNodes : List String
  compRefs : List String
  conns : List ConnNode
deriving Repr, DecidableEq

/-- One `./component[@name=..]` node of a game document. -/
structure CompNode where
  name : String
  cls : String
  blob : String
deriving Repr, DecidableEq

/-- A parsed game XML document: the macro and component children of its
root. -/
structure GameDoc where
  macroNodes : List MacroNode
  compNodes : List CompNode
deriving Repr, DecidableEq

/-- The collaborators of `MacroDB` (`src/macros.py`): the file loader
(modelled as a finite map from game path to parsed document, providing
`file_exists` and `open_file`-plus-`etree.parse`), the two path-resolver
members and the two parser members (`macro_parser`, `component_parser`,
set via `set_macro_parser`/`set_component_parser`). -/
structure Config where
  fs : List (String × GameDoc)
  macroPathResolver : String → List String
  componentPathResolver : String → List String
  macroParserFn : String → String → String → List (String × String)
  compParserFn : String → String → CompNode → List (String × String)

def Config.fileExists (cfg : Config) (path : String) : Bool :=
  (cfg.fs.lookup path).isSome

/-- `MacroDB` mutable state: the record mapping `macros`, the per-type
name lists `macros_by_type`, and the pending reference set
`dependencies`. -/
structure DB where
  macros : List (String × MacroRec)
  macrosByType : List (String × List String)
  dependencies : List String
deriving Repr, DecidableEq

/-- `self.macros_by_type.setdefault(t, []).append(n)`. -/
def appendByType : List (String × List String) → String → String → List (String × List String)
  | [], ty, n => [(ty, [n])]
  | (t, ns) :: rest, ty, n =>
    if t = ty then (t, ns ++ [n]) :: rest else (t, ns) :: appendByType rest ty n

/-- Python `str.strip()` restricted to ASCII white space, used on the
component class attribute ("some pesky component has a space in its
class"). -/
def stripStr (s : String) : String :=
  ⟨((s.data.dropWhile Char.isWhitespace).reverse.dropWhile Char.isWhitespace).reverse⟩

/-- `MacroDB.load_component_propertie` (`src/macros.py`): resolve the
component's candidate paths, use the first that exists, parse the
document, and hand the unique `./component[@name=..]` node to the
component parser; zero or several matching nodes yield the empty dict
(with a log), as does failure to find any existing path. -/
def loadComponentPropertie (cfg : Config) (compName : String) : List (String × String) :=
  match (cfg.componentPathResolver compName).find? (fun p => cfg.fileExists p) with
  | none => []
  | some compPath =>
    match cfg.fs.lookup compPath with
    | none => []
    | some doc =>
      match doc.compNodes.filter (fun c => c.name = compName) with
      | [c] => cfg.compParserFn compName (stripStr c.cls) c
      | _ => []

/-- The inner `for conn_m_node in conn_node.xpath('./macro[@ref]')` loop:
record the connection and add the referenced name to the pending set when
it is not in `self.macros` (which is constant during one node's
processing). -/
def connRefsFold (db : DB) (cnref : String)
    (acc : List (String × String) × List String) (refs : List String) :
    List (String × String) × List String :=
  refs.foldl
    (fun acc2 mref =>
      (acc2.1 ++ [(cnref, mref)],
        if (db.macros.lookup mref).isSome then acc2.2 else addDep acc2.2 mref))
    acc

/-- The outer loop over `./connections/connection[@ref]` nodes. -/
def connsFoldAux (db : DB) (acc : List (String × String) × List String)
    (conns : List ConnNode) : List (String × String) × List String :=
  conns.foldl (fun acc cn => connRefsFold db cn.ref acc cn.macroRefs) acc

def connsFold (db : DB) (conns : List ConnNode) :
    List (String × String) × List String :=
  connsFoldAux db ([], db.dependencies) conns

/-- Processing of one `./macro[@name][@class]` node inside
`MacroDB.load_macro_xml_file`: parse the unique `<properties>` node via
the macro parser (zero or several yield the empty dict); if a unique
`<component ref=..>` child exists, parse the component and merge its
fields via `properties.update(comp_props)` — the component values
overriding existing keys, by `dict.update` semantics; then walk the
connection nodes, adding every referenced macro id that is not yet in
`self.macros` to the pending set and recording the connection; finally
store the record (`self.macros[name] = macro`, replacing any previous
record of that name), discard the name from the pending set and append
the name to its type's list. -/
def processMacroNode (cfg : Config) (db : DB) (m : MacroNode) : DB :=
  let props1 :=
    match m.propNodes with
    | [p] => cfg.macroParserFn m.name m.cls p
    | _ => []
  let props2 :=
    match m.compRefs with
    | [ref] => dictUpdate props1 (loadComponentPropertie cfg ref)
    | _ => props1
  let cd := connsFold db m.conns
  { macros := assocSet db.macros m.name ⟨m.name, m.cls, cd.1, props2⟩,
    macrosByType := appendByType db.macrosByType m.cls m.name,
    dependencies := removeDep cd.2 m.name }

/-- `MacroDB.load_macro_xml_file`: open and parse the document (`none`
models the exception when the path cannot be opened), then process every
`./macro[@name][@class]` node in document order. -/
def loadMacroXmlFile (cfg : Config) (db : DB) (path : String) : Option DB :=
  (cfg.fs.lookup path).map (fun doc => doc.macroNodes.foldl (processMacroNode cfg) db)

/-- All macro refs of one macro node. -/
def macroRefsOf (m : MacroNode) : List String :=
  m.conns.flatMap (fun cn => cn.macroRefs)

/-- All macro refs of one document. -/
def docRefs (doc : GameDoc) : List String :=
  doc.macroNodes.flatMap macroRefsOf

/-- Every macro ref appearing in any document of the filesystem — the
pool from which loading can ever add pending references. -/
def allRefs (cfg : Config) : List String :=
  cfg.fs.flatMap (fun pd => docRefs pd.2)

/-- The names of the records currently in the mapping. -/
def macroNames (db : DB) : List String :=
  db.macros.map Prod.fst

/-- Step 1 and 2 of `_resolve_step`: the snapshot of pending names that
are not yet satisfied. -/
def stepPending (db : DB) : List String :=
  db.dependencies.filter (fun r => (db.macros.lookup r).isNone)

/-- Step 3 of `_resolve_step`: try to load, in snapshot order, the first
existing resolved path of every pending name. -/
def loadPending (cfg : Config) (db : DB) (pending : List String) : DB :=
  pending.foldl
    (fun acc ref =>
      match (cfg.macroPathResolver ref).find? (fun p => cfg.fileExists p) with
      | some path => (loadMacroXmlFile cfg acc path).getD acc
      | none => acc)
    db

/-- `MacroDB._resolve_step` (`src/macros.py`): (1) drop pending names
that are already satisfied; (2) snapshot the set; (3) for each name of
the snapshot, resolve its candidate paths and load the first existing
one (names with no resolvable or existing path are only logged); (4)
report whether the pending set changed, comparing as sets (Python
`!=` on `set`), which under the no-duplicate invariant the membership
double-inclusion below decides. -/
def resolveStep (cfg : Config) (db : DB) : DB × Bool :=
  let deps1 := stepPending db
  let db2 := loadPending cfg { db with dependencies := deps1 } deps1
  (db2, !(deps1.all (fun d => db2.dependencies.contains d) &&
          db2.dependencies.all (fun d => deps1.contains d)))

/-- `MacroDB.resolve_dependencies`: iterate `_resolve_step` while the
pending set is nonempty and still changing; return whether it emptied.
Fuel-structural rendering of the `while` loop: `none` means the loop has
not exited within `fuel` iterations (a termination theorem below shows
some fuel always suffices). -/
def resolveDependenciesFuel (cfg : Config) : Nat → DB → Option (Bool × DB)
  | 0, _ => none
  | fuel + 1, db =>
    if db.dependencies.isEmpty then some (true, db)
    else
      let sc := resolveStep cfg db
      if sc.2 then resolveDependenciesFuel cfg fuel sc.1
      else some (sc.1.dependencies.isEmpty, sc.1)

/-- Termination measure for `resolve_dependencies` relative to a finite
name universe `U` (the initial pending names plus every ref occurring in
the filesystem): defined names within `U` can only grow, and while they
stand still a changing step strictly grows the pending set within `U`. -/
def dbMeasure (U : Finset String) (db : DB) : Nat :=
  (U \ (macroNames db).toFinset).card * (U.card + 1) +
    (U \ db.dependencies.toFinset).card

/-- The empty database. -/
def dbEmpty : DB := ⟨[], [], []⟩

/-- Configuration for the property-merge example: the macro parser
produces key `k` with value `"macro-value"`, the component parser the
same key `k` with value `"comp-value"`. -/
def cfgC1 : Config :=
  { fs := [("assets/props/c1.xml", ⟨[], [⟨"comp1", "engine", "b"⟩]⟩)],
    macroPathResolver := fun _ => [],
    componentPathResolver := fun _ => ["assets/props/c1.xml"],
    macroParserFn := fun _ _ _ => [("k", "macro-value")],
    compParserFn := fun _ _ _ => [("k", "comp-value")] }

/-- A macro node with one properties node and one component reference. -/
def mC1 : MacroNode := ⟨"m1", "engine", ["props-blob"], ["comp1"], []⟩

/-- The cycle scenario of the specification: records `A → B → C → A`,
one document per record, every path resolvable. -/
def nodeA : MacroNode := ⟨"A", "ship", [], [], [⟨"c1", ["B"]⟩]⟩

def nodeB : MacroNode := ⟨"B", "ship", [], [], [⟨"c1", ["C"]⟩]⟩

def nodeC : MacroNode := ⟨"C", "ship", [], [], [⟨"c1", ["A"]⟩]⟩

def cfgCyc : Config :=
  { fs := [("pA", ⟨[nodeA], []⟩), ("pB", ⟨[nodeB], []⟩), ("pC", ⟨[nodeC], []⟩)],
    macroPathResolver := fun n =>
      if n = "A" then ["pA"] else if n = "B" then ["pB"] else
      if n = "C" then ["pC"] else [],
    componentPathResolver := fun _ => [],
    macroParserFn := fun _ _ _ => [],
    compParserFn := fun _ _ _ => [] }

/-- The state after the client loads `A`'s document directly. -/
def dbCycA : DB := (loadMacroXmlFile cfgCyc dbEmpty "pA").getD dbEmpty

/-- Duplicate-load scenario: the document of pending name `A2` also
defines `B2`, and `B2`'s own document (larger properties) is still loaded
afterwards within the same step, replacing `B2`'s record and appending a
second `B2` to the `t` name list. -/
def nodeA2 : MacroNode := ⟨"A2", "t", [], [], []⟩

def nodeB2 : MacroNode := ⟨"B2", "t", [], [], []⟩

def nodeB2x : MacroNode := ⟨"B2", "t", ["pp"], [], []⟩

def cfgDup : Config :=
  { fs := [("pA2", ⟨[nodeA2, nodeB2], []⟩), ("pB2", ⟨[nodeB2x], []⟩)],
    macroPathResolver := fun n =>
      if n = "A2" then ["pA2"] else if n = "B2" then ["pB2"] else [],
    componentPathResolver := fun _ => [],
    macroParserFn := fun _ _ _ => [("src", "second")],
    compParserFn := fun _ _ _ => [] }

def dbDup : DB := ⟨[], [], ["A2", "B2"]⟩

/-- Unresolvable-name scenario refuting C4 as stated: `D`'s own paths
resolve to nothing, but `E`'s document defines both `E` and `D`, so
resolution succeeds and `D` ends up present. -/
def nodeE : MacroNode := ⟨"E", "t", [], [], []⟩

def nodeDviaE : MacroNode := ⟨"D", "t", [], [], []⟩

def cfgC4 : Config :=
  { fs := [("pE", ⟨[nodeE, nodeDviaE], []⟩)],
    macroPathResolver := fun n => if n = "E" then ["pE"] else [],
    componentPathResolver := fun _ => [],
    macroParserFn := fun _ _ _ => [],
    compParserFn := fun _ _ _ => [] }

def dbC4 : DB := ⟨[], [], ["D", "E"]⟩

/-- Witness configuration for the amended C4: a single permanently
unresolvable pending name over an empty filesystem. -/
def cfgC4W : Config :=
  { fs := [],
    macroPathResolver := fun _ => [],
    componentPathResolver := fun _ => [],
    macroParserFn := fun _ _ _ => [],
    compParserFn := fun _ _ _ => [] }

def dbC4W : DB := ⟨[], [], ["D"]⟩

end MacrosDB

end X4F

/-! ## Theorems -/

namespace X4F

namespace Dat

/-- If the underlying file position is already at or past the end of its
data, every `read` returns no bytes and leaves the state unchanged, so the
`readall` accumulation loop never exits while the buffer is short of the
clamped size, whatever the fuel. -/
theorem readallLoop_none_of_exhausted (buf : List Nat) (size : Nat) (f : DatGameFile)
    (hpos : f.dat.data.length ≤ f.dat.pos) (hlt : buf.length < size) :
    ∀ fuel, readallLoop fuel buf size f = none := by
  intro fuel
  induction fuel with
  | zero => simp [readallLoop, hlt]
  | succ n ih =>
    have hread : f.read ((size : Int) - (buf.length : Int)) = ([], f) := by
      simp [DatGameFile.read, UFile.read, List.drop_eq_nil_of_le hpos]
    rw [readallLoop]
    simpa [hlt, hread] using ih

/-- C3, failing input: a bounded region of size 10 at offset 0 over an
underlying stream of only 3 bytes.  `readall` never terminates: the first
read exhausts the stream, every further read of the loop returns no bytes,
and the loop guard `len(buf) < size` stays true forever, so no amount of
fuel makes the loop exit.  The code does not implement the claimed
"or the underlying source returns no more data" exit condition. -/
theorem c3_readall_diverges_on_short_stream :
    ∀ fuel : Nat,
      DatGameFile.readall fuel (mkDatGameFile ⟨[7, 8, 9], 0⟩ 0 10) = none := by
  intro fuel
  have h := readallLoop_none_of_exhausted [7, 8, 9] 10
      { dat := ⟨[7, 8, 9], 3⟩, start := 0, stop := 10 } (by simp) (by simp)
  calc DatGameFile.readall fuel (mkDatGameFile ⟨[7, 8, 9], 0⟩ 0 10)
      = readallLoop fuel [7, 8, 9] 10 { dat := ⟨[7, 8, 9], 3⟩, start := 0, stop := 10 } := by rfl
    _ = none := h fuel

/-- Sanity check of the embedding, also the half of the claim the code does
satisfy: when the underlying stream covers the whole region, `readall`
terminates at once and returns exactly `size` bytes. -/
theorem readall_exact_of_adequate (data : List Nat) (offset size fuel : Nat)
    (h : offset + size ≤ data.length) :
    ∃ buf f',
      DatGameFile.readall fuel (mkDatGameFile ⟨data, 0⟩ offset size) = some (buf, f') ∧
      buf.length = size := by
  have hchunk : (((data.drop offset).take size).length) = size := by
    simp [List.length_take, List.length_drop]
    omega
  refine ⟨(data.drop offset).take size,
    { dat := ⟨data, offset + ((data.drop offset).take size).length⟩,
      start := offset, stop := offset + size }, ?_, hchunk⟩
  have hmin : size ⊓ (data.length - offset) = size := min_eq_left (by omega)
  simp [DatGameFile.readall, mkDatGameFile, DatGameFile.clampOp, DatGameFile.read,
    UFile.read, List.length_take, List.length_drop, hmin]
  rw [readallLoop.eq_def]
  simp [hchunk]

end Dat

namespace Lang

/-- Once the substitution pass fixes a text, the fixed-point loop stops on
it immediately, whatever positive fuel remains. -/
theorem substLoop_of_fix {tree : LangTree} {t : List Char} (n : Nat)
    (h : subFields (resolveField tree) t = t) :
    substLoop tree (n + 1) t = some t := by
  simp [substLoop, h]

/-- C2, counterexample: on the specification's own example input the code
does not produce `"Ship Alpha and Beta end"`.  Parenthetical-comment
removal is applied per looked-up text inside `resolve_field`, not to the
whole string after the substitution fixed point, so the comment
`(ignored)` written literally in the template survives. -/
theorem c2_comment_removal_counterexample :
    exampleResolver.resolveString 2 exampleTemplate none false =
        some (Except.ok exampleResolved) ∧
      exampleResolved ≠ "Ship Alpha and Beta end" := by
  constructor
  · rfl
  · decide

/-- C2, amended: for every fuel of at least two passes (the loop needs one
pass to substitute both fields and a second to observe no further change),
the example template resolves to `"Ship Alpha and Beta (ignored) end"`:
comments inside looked-up texts are removed at lookup time, comments in
the template text itself are kept. -/
theorem c2_comment_removal_amended :
    ∀ n : Nat,
      exampleResolver.resolveString (n + 2) exampleTemplate none false =
        some (Except.ok exampleResolved) := by
  intro n
  have hstep : subFields (resolveField exampleTree) exampleTemplate.data =
      exampleResolved.data := by decide
  have hne : subFields (resolveField exampleTree) exampleTemplate.data ≠
      exampleTemplate.data := by decide
  have hfix : subFields (resolveField exampleTree) exampleResolved.data =
      exampleResolved.data := by decide
  have hloop : substLoop exampleTree (n + 1 + 1) exampleTemplate.data =
      some exampleResolved.data := by
    rw [substLoop]
    simp only [hne, if_false, hstep, reduceIte]
    exact substLoop_of_fix n hfix
  have hre : exampleResolver.resolveString (n + 2) exampleTemplate none false =
      (substLoop exampleTree (n + 1 + 1) exampleTemplate.data).map
        (fun t => Except.ok (⟨unescape t⟩ : String)) := rfl
  rw [hre, hloop]
  have hesc : unescape exampleResolved.data = exampleResolved.data := by decide
  simp [hesc]

/-- C9, counterexample: the empty template is returned unchanged before
the language is even looked at, so resolving `""` with a language that is
not loaded is not an error — against the claim that an unloaded language
is a hard error for every template string. -/
theorem c9_empty_template_counterexample :
    LanguageResolver.resolveString ⟨[], none⟩ 1 "" (some "en") false =
      some (Except.ok "") := rfl

/-- C9, amended: for every NONEMPTY template, resolving with a requested
language that is not loaded — or with the configured default (possibly
still unset) when no language is requested — raises `KeyError`, with no
fallback. -/
theorem c9_unloaded_language_is_error (r : LanguageResolver) (fuel : Nat)
    (template : String) (langName : Option String) (strip : Bool)
    (hne : template ≠ "")
    (hun : ∀ l, (match langName with
        | some x => some x
        | none => r.defaultLang) = some l → r.langTrees.lookup l = none) :
    ∃ msg, r.resolveString fuel template langName strip =
      some (Except.error msg) := by
  cases langName with
  | some l =>
    have h := hun l rfl
    exact ⟨"Language " ++ l ++ " not loaded",
      by simp [LanguageResolver.resolveString, hne, h]⟩
  | none =>
    cases hd : r.defaultLang with
    | none =>
      exact ⟨"Language None not loaded",
        by simp [LanguageResolver.resolveString, hne, hd]⟩
    | some l =>
      have h := hun l (by simpa using hd)
      exact ⟨"Language " ++ l ++ " not loaded",
        by simp [LanguageResolver.resolveString, hne, hd, h]⟩

/-- Witness for C9's amended theorem at a concrete input: a resolver with
no loaded languages, an explicitly requested language and a nonempty
template. -/
theorem c9_unloaded_language_is_error_witness :
    ∃ msg, LanguageResolver.resolveString ⟨[], none⟩ 1 "hi" (some "en") false =
      some (Except.error msg) :=
  c9_unloaded_language_is_error ⟨[], none⟩ 1 "hi" (some "en") false
    (by decide) (fun l hl => by cases hl; rfl)

end Lang

namespace Cat

/-- Looking a key up in an extended association list still finds the old
binding: appending entries never shadows existing ones. -/
theorem lookup_append_left {cs : List (String × GNode)} {k : String} {v : GNode}
    (ds : List (String × GNode)) (h : cs.lookup k = some v) :
    (cs ++ ds).lookup k = some v := by
  induction cs with
  | nil => simp [List.lookup] at h
  | cons p rest ih =>
    obtain ⟨k', v'⟩ := p
    by_cases hk : k = k'
    · subst hk
      simpa [List.lookup] using h
    · have hb : (k == k') = false := beq_eq_false_iff_ne.mpr hk
      simp only [List.cons_append, List.lookup, hb] at h ⊢
      exact ih h

/-- Replacing the value under key `d` makes lookups of `d` see the new
value, provided `d` was bound. -/
theorem assocReplace_lookup_eq {cs : List (String × GNode)} {d : String}
    {c : GNode} (v : GNode) (h : cs.lookup d = some c) :
    (assocReplace cs d v).lookup d = some v := by
  induction cs with
  | nil => simp [List.lookup] at h
  | cons p rest ih =>
    obtain ⟨k', v'⟩ := p
    by_cases hk : k' = d
    · subst hk
      rw [assocReplace, if_pos rfl, List.lookup]
      simp
    · have hb : (d == k') = false := beq_eq_false_iff_ne.mpr (fun hh => hk hh.symm)
      simp only [List.lookup, hb] at h
      simp only [assocReplace, if_neg hk, List.lookup, hb]
      exact ih h

/-- Replacing the value under key `d` leaves lookups of other keys
unchanged. -/
theorem assocReplace_lookup_ne (cs : List (String × GNode)) {q d : String}
    (v : GNode) (h : q ≠ d) :
    (assocReplace cs d v).lookup q = cs.lookup q := by
  induction cs with
  | nil => simp [assocReplace]
  | cons p rest ih =>
    obtain ⟨k', v'⟩ := p
    by_cases hk : k' = d
    · subst hk
      have hb : (q == k') = false := beq_eq_false_iff_ne.mpr h
      simp only [assocReplace, if_pos rfl, List.lookup, hb]
    · simp only [assocReplace, if_neg hk, List.lookup]
      cases hqk : q == k' with
      | true => simp only [hqk]
      | false =>
        simp only [hqk]
        exact ih

/-- Inserting an archive entry never disturbs a path that already
resolves to a file: `insertEntry` only creates missing directories and
registers the entry when its name is not already taken. -/
theorem findEntry_insertEntry (dirs : List String) :
    ∀ (t t' : GNode) (e : CatEntry) (p : List String) (x : CatEntry),
      findEntry t p = some (GNode.file x) →
      insertEntry t dirs e = Except.ok t' →
      findEntry t' p = some (GNode.file x) := by
  induction dirs with
  | nil =>
    intro t t' e p x hf hins
    cases t with
    | file e0 => simp [insertEntry] at hins
    | loader t0 => simp [insertEntry] at hins
    | dir cs =>
      simp only [insertEntry, Except.ok.injEq] at hins
      subst hins
      cases p with
      | nil => simp [findEntry] at hf
      | cons q qs =>
        cases hq : cs.lookup q with
        | none => simp [findEntry, hq] at hf
        | some c =>
          simp only [findEntry, hq] at hf
          by_cases he : (cs.lookup e.name).isSome
          · simp only [findEntry, if_pos he, hq]
            exact hf
          · simp only [findEntry, if_neg he, lookup_append_left _ hq]
            exact hf
  | cons d ds ih =>
    intro t t' e p x hf hins
    cases t with
    | file e0 => simp [insertEntry] at hins
    | loader t0 => simp [insertEntry] at hins
    | dir cs =>
      cases hq0 : cs.lookup d with
      | some child =>
        simp only [insertEntry, hq0] at hins
        cases hin : insertEntry child ds e with
        | error c' => rw [hin] at hins; simp at hins
        | ok c' =>
          rw [hin] at hins
          simp only [Except.ok.injEq] at hins
          subst hins
          cases p with
          | nil => simp [findEntry] at hf
          | cons q qs =>
            cases hq : cs.lookup q with
            | none => simp [findEntry, hq] at hf
            | some c =>
              simp only [findEntry, hq] at hf
              by_cases hqd : q = d
              · subst hqd
                rw [hq0] at hq
                injection hq with hc
                subst hc
                simp only [findEntry, assocReplace_lookup_eq c' hq0]
                exact ih _ c' e qs x hf hin
              · simp only [findEntry, assocReplace_lookup_ne cs c' hqd, hq]
                exact hf
      | none =>
        simp only [insertEntry, hq0] at hins
        cases hin : insertEntry (GNode.dir []) ds e with
        | error c' => rw [hin] at hins; simp at hins
        | ok c' =>
          rw [hin] at hins
          simp only [Except.ok.injEq] at hins
          subst hins
          cases p with
          | nil => simp [findEntry] at hf
          | cons q qs =>
            cases hq : cs.lookup q with
            | none => simp [findEntry, hq] at hf
            | some c =>
              simp only [findEntry, hq] at hf
              simp only [findEntry, lookup_append_left _ hq]
              exact hf

/-- The preservation property lifted over the insertion of a whole parsed
entry list. -/
theorem findEntry_insertEntries (rs : List RawEntry) :
    ∀ (t t' : GNode) (p : List String) (x : CatEntry),
      findEntry t p = some (GNode.file x) →
      insertEntries t rs = Except.ok t' →
      findEntry t' p = some (GNode.file x) := by
  induction rs with
  | nil =>
    intro t t' p x hf hins
    simp only [insertEntries, Except.ok.injEq] at hins
    subst hins
    exact hf
  | cons r rest ih =>
    intro t t' p x hf hins
    simp only [insertEntries] at hins
    cases hin : insertEntry t r.dirs r.entry with
    | error t1 => rw [hin] at hins; simp at hins
    | ok t1 =>
      rw [hin] at hins
      exact ih t1 t' p x (findEntry_insertEntry r.dirs t t1 r.entry p x hf hin) hins

/-- The preservation property lifted over a successful `_load_cat_file`. -/
theorem findEntry_loadCatFile (st : CatState) (catPath datPath : String)
    (lines : List String) (t : GNode) (l : List String) (p : List String) (x : CatEntry)
    (hload : loadCatFile st catPath datPath lines = CatLoadResult.success t l)
    (hf : findEntry st.fileTree p = some (GNode.file x)) :
    findEntry t p = some (GNode.file x) := by
  unfold loadCatFile at hload
  split at hload
  · simp at hload
  · simp at hload
  · rename_i es hp
    split at hload
    · rename_i t1 hin
      simp only [CatLoadResult.success.injEq] at hload
      obtain ⟨ht, _⟩ := hload
      subst ht
      exact findEntry_insertEntries es st.fileTree t1 p x hf hin
    · simp at hload

/-- The preservation property lifted over the pop-and-load loop of
`_load_next_cat_file`: loading the next archive pair never disturbs a path
that already resolves to a file. -/
theorem findEntry_loadNextCatF (p : List String) (x : CatEntry) :
    ∀ (fuel : Nat) (st st' : CatState) (b : Bool),
      loadNextCatF fuel st = some (Except.ok (st', b)) →
      findEntry st.fileTree p = some (GNode.file x) →
      findEntry st'.fileTree p = some (GNode.file x) := by
  intro fuel
  induction fuel with
  | zero => intro st st' b hrun; simp [loadNextCatF] at hrun
  | succ n ih =>
    intro st st' b hrun hf
    rw [loadNextCatF] at hrun
    split at hrun
    · simp only [Option.some.injEq, Except.ok.injEq, Prod.mk.injEq] at hrun
      obtain ⟨hst, _⟩ := hrun
      subst hst
      exact hf
    · rename_i df hlast
      split at hrun
      · exact ih _ st' b hrun hf
      · split at hrun
        · rename_i t l hload
          simp only [Option.some.injEq, Except.ok.injEq, Prod.mk.injEq] at hrun
          obtain ⟨hst, _⟩ := hrun
          subst hst
          exact findEntry_loadCatFile _ df.catPath df.datPath df.lines t l p x hload hf
        · exact ih _ st' b hrun hf
        · simp at hrun
        · simp at hrun

/-- The pop-and-load loop always answers within `length + 1` fuel: each
iteration removes one pending pair from the stack. -/
theorem loadNextCatF_total :
    ∀ (fuel : Nat) (st : CatState), st.dataFiles.length < fuel →
      loadNextCatF fuel st ≠ none := by
  intro fuel
  induction fuel with
  | zero => intro st hlen; omega
  | succ n ih =>
    intro st hlen
    rw [loadNextCatF]
    split
    · simp
    · rename_i df hlast
      have hne : st.dataFiles ≠ [] := by
        intro hnil
        rw [hnil] at hlast
        simp at hlast
      have hpos := List.length_pos.mpr hne
      have hshort : st.dataFiles.dropLast.length < n := by
        rw [List.length_dropLast]
        omega
      split
      · exact ih _ hshort
      · split
        · simp
        · exact ih _ hshort
        · simp
        · simp

/-- The preservation property lifted over the
`while _load_next_cat_file(): pass` loop. -/
theorem findEntry_loadAllCatsF (p : List String) (x : CatEntry) :
    ∀ (fuel : Nat) (st st' : CatState),
      loadAllCatsF fuel st = some (Except.ok st') →
      findEntry st.fileTree p = some (GNode.file x) →
      findEntry st'.fileTree p = some (GNode.file x) := by
  intro fuel
  induction fuel with
  | zero => intro st st' hrun; simp [loadAllCatsF] at hrun
  | succ n ih =>
    intro st st' hrun hf
    simp only [loadAllCatsF] at hrun
    cases hnext : loadNextCat st with
    | none => rw [hnext] at hrun; simp at hrun
    | some r =>
      rw [hnext] at hrun
      cases r with
      | error s => simp at hrun
      | ok pr =>
        obtain ⟨st1, b⟩ := pr
        have hf1 := findEntry_loadNextCatF p x _ st st1 b hnext hf
        cases b with
        | true => exact ih st1 st' hrun hf1
        | false =>
          simp only [Option.some.injEq, Except.ok.injEq] at hrun
          subst hrun
          exact hf1

/-- `_load_next_cat_file` consumes the archive-pair stack from the tail:
with `data_files = rest ++ [df]`, the pair `df` (the highest-priority
remaining one) is popped and loaded first. -/
theorem loadNextCat_pops_last (st : CatState) (df : DataFile) (rest : List DataFile)
    (t : GNode) (l : List String)
    (hdf : st.dataFiles = rest ++ [df])
    (hnew : st.loaded.contains df.catPath = false)
    (hload : loadCatFile { st with dataFiles := rest } df.catPath df.datPath df.lines =
      CatLoadResult.success t l) :
    loadNextCat st = some (Except.ok (⟨t, rest, l⟩, true)) := by
  show loadNextCatF (st.dataFiles.length + 1) st = _
  obtain ⟨n, hn⟩ : ∃ n, st.dataFiles.length = n + 1 :=
    ⟨rest.length, by simp [hdf]⟩
  rw [hn, loadNextCatF]
  rw [hdf, List.getLast?_concat, List.dropLast_concat]
  dsimp only
  rw [hnew]
  simp only [Bool.false_eq_true, if_false]
  rw [hload]

/-- A list of length 4 is literally a four-element list. -/
theorem length_four_exists {α : Type _} {l : List α} (h : l.length = 4) :
    ∃ a b c d, l = [a, b, c, d] := by
  rcases l with _ | ⟨a, _ | ⟨b, _ | ⟨c, _ | ⟨d, _ | ⟨e, tl⟩⟩⟩⟩⟩ <;> simp_all

/-- A file with a line that does not split into four fields makes the
parse phase fail (with the first such failure, which may also be an
earlier unparseable size field — both are whole-file failures raised
before any insertion). -/
theorem parseCatLines_error_of_badline (datPath : String) :
    ∀ (lines : List String) (off : Nat),
      (∃ line ∈ lines, line ≠ "" ∧ (rsplitSpace3 (lowerStr line)).length ≠ 4) →
      ∃ e, parseCatLines datPath lines off = Except.error e := by
  intro lines
  induction lines with
  | nil => intro off h; simp at h
  | cons line rest ih =>
    intro off h
    by_cases hl : line = ""
    · obtain ⟨w, hw, hne, h4⟩ := h
      rcases List.mem_cons.mp hw with rfl | hw
      · exact absurd hl hne
      · obtain ⟨e, he⟩ := ih off ⟨w, hw, hne, h4⟩
        exact ⟨e, by simp [parseCatLines, hl, he]⟩
    · by_cases h4 : (rsplitSpace3 (lowerStr line)).length = 4
      · obtain ⟨p0, p1, p2, p3, hps⟩ := length_four_exists h4
        obtain ⟨w, hw, hwne, hw4⟩ := h
        rcases List.mem_cons.mp hw with rfl | hw
        · exact absurd h4 hw4
        · cases hn : toNatQ p1 with
          | none => exact ⟨ParseErr.badInt, by simp [parseCatLines, hl, hps, hn]⟩
          | some size =>
            obtain ⟨e, he⟩ := ih (off + size) ⟨w, hw, hwne, hw4⟩
            refine ⟨e, ?_⟩
            by_cases hemp : (splitGamePath p0).isEmpty
            · simp [parseCatLines, hl, hps, hn, hemp, he]
            · simp [parseCatLines, hl, hps, hn, hemp, he]
      · refine ⟨ParseErr.badSplit, ?_⟩
        rcases hps : rsplitSpace3 (lowerStr line) with
          _ | ⟨a, _ | ⟨b, _ | ⟨c, _ | ⟨d, _ | ⟨e2, tl⟩⟩⟩⟩⟩ <;>
          first
          | (simp [parseCatLines, hl, hps]; done)
          | simp [hps] at h4

/-- C5: an index file containing a line that does not right-split into
exactly 4 space-separated fields fails to load as a whole — the outcome is
the `return False` (or, for an earlier unparseable size, the escaping
`ValueError`), and in either case the directory tree and the loaded-file
set are exactly as before the call: no entry from any line of that file is
registered, because all parsing happens before any insertion. -/
theorem c5_malformed_index_is_atomic (st : CatState) (catPath datPath : String)
    (lines : List String)
    (hbad : ∃ line ∈ lines, line ≠ "" ∧ (rsplitSpace3 (lowerStr line)).length ≠ 4) :
    (loadCatFile st catPath datPath lines = CatLoadResult.malformed ∨
      loadCatFile st catPath datPath lines = CatLoadResult.intError) ∧
    (loadCatFile st catPath datPath lines).finalTree st = st.fileTree ∧
    (loadCatFile st catPath datPath lines).finalLoaded st = st.loaded := by
  obtain ⟨e, he⟩ := parseCatLines_error_of_badline datPath lines 0 hbad
  cases e with
  | badSplit =>
    refine ⟨Or.inl ?_, ?_, ?_⟩ <;>
      simp [loadCatFile, he, CatLoadResult.finalTree, CatLoadResult.finalLoaded]
  | badInt =>
    refine ⟨Or.inr ?_, ?_, ?_⟩ <;>
      simp [loadCatFile, he, CatLoadResult.finalTree, CatLoadResult.finalLoaded]

/-- Witness for C5 at a concrete input: a two-line index file whose second
line is a single field. -/
theorem c5_malformed_index_is_atomic_witness :
    (loadCatFile stC5W "01.cat" "01.dat" linesC5W = CatLoadResult.malformed ∨
      loadCatFile stC5W "01.cat" "01.dat" linesC5W = CatLoadResult.intError) ∧
    (loadCatFile stC5W "01.cat" "01.dat" linesC5W).finalTree stC5W = stC5W.fileTree ∧
    (loadCatFile stC5W "01.cat" "01.dat" linesC5W).finalLoaded stC5W = stC5W.loaded :=
  c5_malformed_index_is_atomic stC5W "01.cat" "01.dat" linesC5W
    ⟨"justonefield", by decide, by decide, by decide⟩

/-- C6: (1) inserting an entry never disturbs an existing resolution to a
file — in particular an entry whose name is already a child at its node
leaves the existing child in place; (2) therefore any path already
resolving to a file keeps resolving to the same entry through all further
archive loads; (3) archive pairs are consumed from the tail of
`data_files` — the highest-numbered pair first — so the higher-numbered
archive's entry is registered first and, by (1)/(2), always wins over a
lower-numbered archive's entry for the same path. -/
theorem c6_no_overwrite_and_higher_archive_wins :
    (∀ (t t' : GNode) (dirs : List String) (e : CatEntry) (p : List String) (x : CatEntry),
        findEntry t p = some (GNode.file x) →
        insertEntry t dirs e = Except.ok t' →
        findEntry t' p = some (GNode.file x)) ∧
    (∀ (st st' : CatState) (p : List String) (x : CatEntry),
        findEntry st.fileTree p = some (GNode.file x) →
        loadAllCats st = some (Except.ok st') →
        findEntry st'.fileTree p = some (GNode.file x)) ∧
    (∀ (st : CatState) (df : DataFile) (rest : List DataFile) (t : GNode) (l : List String),
        st.dataFiles = rest ++ [df] →
        st.loaded.contains df.catPath = false →
        loadCatFile { st with dataFiles := rest } df.catPath df.datPath df.lines =
          CatLoadResult.success t l →
        loadNextCat st = some (Except.ok (⟨t, rest, l⟩, true))) := by
  refine ⟨?_, ?_, ?_⟩
  · intro t t' dirs e p x hf hins
    exact findEntry_insertEntry dirs t t' e p x hf hins
  · intro st st' p x hf hrun
    exact findEntry_loadAllCatsF p x _ st st' hrun hf
  · intro st df rest t l hdf hnew hload
    exact loadNextCat_pops_last st df rest t l hdf hnew hload

/-- Witness for C6 at a concrete input: archive 02 (already loaded,
entry `entry02W` at `assets/ship.xml`) and pending archive 01 declaring
the same path.  Loading 01 pops it from the stack tail, its entry is not
registered, and the path still resolves to archive 02's entry after the
whole stack is consumed. -/
theorem c6_no_overwrite_and_higher_archive_wins_witness :
    loadNextCat stW =
      some (Except.ok (⟨tree02W, [], ["02.cat", "01.cat"]⟩, true)) ∧
    findEntry (CatState.mk tree02W [] ["02.cat", "01.cat"]).fileTree
      ["assets", "ship.xml"] = some (GNode.file entry02W) := by
  constructor
  · exact c6_no_overwrite_and_higher_archive_wins.2.2 stW cat01W [] tree02W
      ["02.cat", "01.cat"] rfl rfl rfl
  · exact c6_no_overwrite_and_higher_archive_wins.2.1 stW
      ⟨tree02W, [], ["02.cat", "01.cat"]⟩ ["assets", "ship.xml"] entry02W
      (by simp [stW, tree02W, findEntry, List.lookup, entry02W]) rfl

/-- C10: `file_exists` is true exactly when the path resolves to an
archive entry; a path resolving to a directory node or to a mounted
overlay loader yields `false` (no exception), while `open_file` on the
same path raises a `ValueError`. -/
theorem c10_file_exists_dispatch (root : GNode) (path : String) :
    (fileExists root path = true ↔
      ∃ e, findEntry root (splitGamePath (lowerStr path)) =
        some (GNode.file e)) ∧
    (∀ n, findEntry root (splitGamePath (lowerStr path)) = some n →
      (∀ e, n ≠ GNode.file e) →
      fileExists root path = false ∧
        ∃ msg, openFile root path = Except.error msg) := by
  constructor
  · constructor
    · intro hex
      unfold fileExists at hex
      split at hex
      · rename_i e hfe
        exact ⟨e, hfe⟩
      · simp at hex
    · intro ⟨e, hfe⟩
      simp [fileExists, hfe]
  · intro n hfe hnotfile
    constructor
    · unfold fileExists
      split
      · rename_i e hfe'
        rw [hfe] at hfe'
        injection hfe' with hn
        exact absurd hn (hnotfile e)
      · rfl
    · by_cases hp : path = ""
      · exact ⟨"Empty path", by simp [openFile, hp]⟩
      · cases n with
        | file e => exact absurd rfl (hnotfile e)
        | dir cs =>
          exact ⟨"path is not a file, but another node type",
            by simp [openFile, hp, hfe]⟩
        | loader t =>
          exact ⟨"path is not a file, but another node type",
            by simp [openFile, hp, hfe]⟩

/-- Witness for C10 at a concrete tree with a file, a directory and a
mounted overlay: `file_exists` answers true / false / false, and
`open_file` errors on the directory and the overlay mount. -/
theorem c10_file_exists_dispatch_witness :
    fileExists rootW "sub/f.xml" = true ∧
    (fileExists rootW "sub" = false ∧
      ∃ m1, openFile rootW "sub" = Except.error m1) ∧
    (fileExists rootW "extensions/mod1" = false ∧
      ∃ m2, openFile rootW "extensions/mod1" = Except.error m2) := by
  refine ⟨?_, ?_, ?_⟩
  · refine (c10_file_exists_dispatch rootW "sub/f.xml").1.mpr ⟨entry01W, ?_⟩
    show findEntry rootW ["sub", "f.xml"] = some (GNode.file entry01W)
    simp [findEntry, rootW, List.lookup, entry01W]
  · refine (c10_file_exists_dispatch rootW "sub").2
      (GNode.dir [("f.xml", GNode.file entry01W)]) ?_
      (fun e h => GNode.noConfusion h)
    show findEntry rootW ["sub"] = some (GNode.dir [("f.xml", GNode.file entry01W)])
    simp [findEntry, rootW, List.lookup, entry01W]
  · refine (c10_file_exists_dispatch rootW "extensions/mod1").2
      (GNode.loader (GNode.dir [])) ?_ (fun e h => GNode.noConfusion h)
    show findEntry rootW ["extensions", "mod1"] = some (GNode.loader (GNode.dir []))
    simp [findEntry, rootW, List.lookup]

/-- Partial sums of the declared sizes are monotone: extending a prefix
of length `i` to one of length `j > i` adds at least the `i`-th size. -/
theorem take_sum_mono (es : List RawEntry) :
    ∀ (i j : Nat) (hi : i < es.length), i < j → j ≤ es.length →
      ((es.take i).map (fun r => r.entry.size)).sum + (es.get ⟨i, hi⟩).entry.size ≤
        ((es.take j).map (fun r => r.entry.size)).sum := by
  induction es with
  | nil => intro i j hi _ _; simp at hi
  | cons r rest ih =>
    intro i j hi hij hj
    cases i with
    | zero =>
      cases j with
      | zero => omega
      | succ j' =>
        simp only [List.take_zero, List.map_nil, List.sum_nil, List.take_succ_cons,
          List.map_cons, List.sum_cons, List.get]
        omega
    | succ i' =>
      cases j with
      | zero => omega
      | succ j' =>
        simp only [List.take_succ_cons, List.map_cons, List.sum_cons, List.get]
        have := ih i' j' (by simpa using hi) (by omega) (by simpa using hj)
        omega

/-- Parsing a sequence of valid index lines succeeds, yields one entry per
line, and derives every entry's offset as the running sum of the declared
sizes of the lines before it, starting from the given base offset. -/
theorem parseCatLines_valid (datPath : String) :
    ∀ (lines : List String) (off : Nat), (∀ l ∈ lines, ValidLine l) →
      ∃ es, parseCatLines datPath lines off = Except.ok es ∧
        es.length = lines.length ∧
        ∀ i (hi : i < es.length),
          (es.get ⟨i, hi⟩).entry.offset =
            off + ((es.take i).map (fun r => r.entry.size)).sum := by
  intro lines
  induction lines with
  | nil =>
    intro off _
    exact ⟨[], rfl, rfl, fun i hi => by simp at hi⟩
  | cons line rest ih =>
    intro off hval
    obtain ⟨hne, h4, hpath, hnat⟩ := hval line (List.mem_cons_self line rest)
    obtain ⟨p0, p1, p2, p3, hps⟩ := length_four_exists h4
    rw [hps] at hpath hnat
    simp only [List.getD_cons_zero, List.getD_cons_succ] at hpath hnat
    obtain ⟨size, hsize⟩ := Option.isSome_iff_exists.mp hnat
    obtain ⟨es, hes, hlen, hoff⟩ :=
      ih (off + size) (fun l hl => hval l (List.mem_cons_of_mem _ hl))
    refine ⟨⟨(splitGamePath p0).dropLast,
      ⟨datPath, (splitGamePath p0).getLastD "", size, off⟩⟩ :: es, ?_, ?_, ?_⟩
    · have hemp : (splitGamePath p0).isEmpty = false := by
        cases hsp : splitGamePath p0 with
        | nil => exact absurd hsp hpath
        | cons a tl => rfl
      simp [parseCatLines, hne, hps, hsize, hemp, hes]
    · simpa using hlen
    · intro i hi
      cases i with
      | zero => simp
      | succ i' =>
        simp only [List.take_succ_cons, List.map_cons, List.sum_cons, List.get]
        rw [hoff i' (by simpa using hi)]
        omega

/-- C8, amended: for every sequence of valid index lines the derived
offsets start at 0 and each entry's offset is the cumulative sum of the
declared sizes of all prior entries; the `[offset, offset+size)` windows
are pairwise non-overlapping, and they are strictly increasing provided
every declared size is positive (a zero-size entry shares its offset with
its successor, which is what the counterexample exhibits). -/
theorem c8_offsets_cumulative (datPath : String) (lines : List String)
    (hval : ∀ l ∈ lines, ValidLine l) :
    ∃ es, parseCatLines datPath lines 0 = Except.ok es ∧
      es.length = lines.length ∧
      (∀ i (hi : i < es.length),
        (es.get ⟨i, hi⟩).entry.offset =
          ((es.take i).map (fun r => r.entry.size)).sum) ∧
      (∀ i j (hi : i < es.length) (hj : j < es.length), i < j →
        (es.get ⟨i, hi⟩).entry.offset + (es.get ⟨i, hi⟩).entry.size ≤
          (es.get ⟨j, hj⟩).entry.offset) ∧
      ((∀ r ∈ es, 0 < r.entry.size) →
        ∀ i j (hi : i < es.length) (hj : j < es.length), i < j →
          (es.get ⟨i, hi⟩).entry.offset < (es.get ⟨j, hj⟩).entry.offset) := by
  obtain ⟨es, hes, hlen, hoff⟩ := parseCatLines_valid datPath lines 0 hval
  refine ⟨es, hes, hlen, ?_, ?_, ?_⟩
  · intro i hi
    simpa using hoff i hi
  · intro i j hi hj hij
    have := take_sum_mono es i j hi hij (le_of_lt hj)
    rw [hoff i hi, hoff j hj]
    omega
  · intro hpos i j hi hj hij
    have hnn := take_sum_mono es i j hi hij (le_of_lt hj)
    have hgt : 0 < (es.get ⟨i, hi⟩).entry.size := hpos _ (es.get_mem i hi)
    rw [hoff i hi, hoff j hj]
    omega

/-- Witness for C8's amended theorem at two concrete valid lines. -/
theorem c8_offsets_cumulative_witness :
    ∃ es, parseCatLines "01.dat" linesC8W 0 = Except.ok es ∧
      es.length = linesC8W.length ∧
      (∀ i (hi : i < es.length),
        (es.get ⟨i, hi⟩).entry.offset =
          ((es.take i).map (fun r => r.entry.size)).sum) ∧
      (∀ i j (hi : i < es.length) (hj : j < es.length), i < j →
        (es.get ⟨i, hi⟩).entry.offset + (es.get ⟨i, hi⟩).entry.size ≤
          (es.get ⟨j, hj⟩).entry.offset) ∧
      ((∀ r ∈ es, 0 < r.entry.size) →
        ∀ i j (hi : i < es.length) (hj : j < es.length), i < j →
          (es.get ⟨i, hi⟩).entry.offset < (es.get ⟨j, hj⟩).entry.offset) :=
  c8_offsets_cumulative "01.dat" linesC8W
    (by intro l hl; simp only [linesC8W, List.mem_cons, List.not_mem_nil, or_false] at hl
        rcases hl with rfl | rfl <;> decide)

/-- C8, counterexample: two valid index lines, the first declaring size 0.
Both derived windows start at offset 0, so the sequence of windows is not
strictly increasing as claimed (the windows are still non-overlapping:
the first is empty). -/
theorem c8_zero_size_counterexample :
    (∀ l ∈ linesC8W, ValidLine l) ∧
    parseCatLines "01.dat" linesC8W 0 =
      Except.ok [⟨[], ⟨"01.dat", "a", 0, 0⟩⟩, ⟨[], ⟨"01.dat", "b", 5, 0⟩⟩] ∧
    ¬ ((0 : Nat) < 0) := by
  refine ⟨?_, rfl, by omega⟩
  intro l hl
  simp only [linesC8W, List.mem_cons, List.not_mem_nil, or_false] at hl
  rcases hl with rfl | rfl <;> decide

end Cat

namespace MacrosDB

/-- Looking up the key just assigned finds the assigned value. -/
theorem assocSet_lookup_self {α : Type _} (d : List (String × α)) (k : String) (v : α) :
    (assocSet d k v).lookup k = some v := by
  induction d with
  | nil => simp [assocSet, List.lookup]
  | cons p rest ih =>
    obtain ⟨k', v'⟩ := p
    by_cases hk : k' = k
    · subst hk
      simp [assocSet, List.lookup]
    · have hb : (k == k') = false := beq_eq_false_iff_ne.mpr (fun hh => hk hh.symm)
      simp only [assocSet, if_neg hk, List.lookup, hb]
      exact ih

/-- Assignment leaves lookups of other keys unchanged. -/
theorem assocSet_lookup_ne {α : Type _} (d : List (String × α)) {q k : String} (v : α)
    (h : q ≠ k) : (assocSet d k v).lookup q = d.lookup q := by
  induction d with
  | nil =>
    have hb : (q == k) = false := beq_eq_false_iff_ne.mpr h
    simp [assocSet, List.lookup, hb]
  | cons p rest ih =>
    obtain ⟨k', v'⟩ := p
    by_cases hk : k' = k
    · subst hk
      have hb : (q == k') = false := beq_eq_false_iff_ne.mpr h
      simp [assocSet, List.lookup, hb]
    · simp only [assocSet, if_neg hk, List.lookup]
      cases hqk : q == k' with
      | true => simp only [hqk]
      | false =>
        simp only [hqk]
        exact ih

/-- Updating with pairs whose keys avoid `k` leaves `k`'s binding alone. -/
theorem dictUpdate_lookup_not_mem (e : List (String × String)) :
    ∀ (d : List (String × String)) (k : String), k ∉ e.map Prod.fst →
      (dictUpdate d e).lookup k = d.lookup k := by
  induction e with
  | nil => intro d k _; rfl
  | cons p rest ih =>
    intro d k hk
    obtain ⟨k', v'⟩ := p
    simp only [List.map_cons, List.mem_cons] at hk
    push_neg at hk
    show (dictUpdate (assocSet d k' v') rest).lookup k = d.lookup k
    rw [ih _ k hk.2, assocSet_lookup_ne d v' hk.1]

/-- `dict.update` semantics: a key bound in the update argument ends up
bound to the update's value (keys of the argument assumed unique, as they
are for an actual Python dict). -/
theorem dictUpdate_lookup_of_mem (e : List (String × String)) :
    ∀ (d : List (String × String)) (k : String) (v : String),
      (e.map Prod.fst).Nodup → e.lookup k = some v →
      (dictUpdate d e).lookup k = some v := by
  induction e with
  | nil => intro d k v _ h; simp [List.lookup] at h
  | cons p rest ih =>
    intro d k v hnd h
    obtain ⟨k', v'⟩ := p
    simp only [List.map_cons, List.nodup_cons] at hnd
    by_cases hk : k = k'
    · subst hk
      simp only [List.lookup, beq_self_eq_true] at h
      injection h with hv
      show (dictUpdate (assocSet d k v') rest).lookup k = some v
      rw [dictUpdate_lookup_not_mem rest _ k hnd.1, assocSet_lookup_self, hv]
    · have hb : (k == k') = false := beq_eq_false_iff_ne.mpr hk
      simp only [List.lookup, hb] at h
      exact ih _ k v hnd.2 h

/-- C1, amended: when a macro node has one properties node and one
component reference, the stored record's properties are the macro
parser's dict updated by the component's dict, and for every key the
component produces, the final value is the COMPONENT's —
`properties.update(comp_props)` lets the later (component) parse override
the earlier (macro) parse for shared keys. -/
theorem c1_component_overrides_macro (cfg : Config) (db : DB) (m : MacroNode)
    (p ref : String) (hp : m.propNodes = [p]) (hc : m.compRefs = [ref])
    (hnodup : ((loadComponentPropertie cfg ref).map Prod.fst).Nodup) :
    ∃ mac, (processMacroNode cfg db m).macros.lookup m.name = some mac ∧
      mac.properties =
        dictUpdate (cfg.macroParserFn m.name m.cls p) (loadComponentPropertie cfg ref) ∧
      ∀ k v, (loadComponentPropertie cfg ref).lookup k = some v →
        mac.properties.lookup k = some v := by
  unfold processMacroNode
  rw [hp, hc]
  dsimp only
  exact ⟨_, assocSet_lookup_self _ _ _, rfl,
    fun k v hv => dictUpdate_lookup_of_mem _ _ k v hnodup hv⟩

/-- C1, counterexample: with the macro parser producing `k = "macro-value"`
and the component parser producing `k = "comp-value"` for the same key,
the final record holds the COMPONENT's value, not the macro's. -/
theorem c1_component_overrides_macro_counterexample :
    ((processMacroNode cfgC1 dbEmpty mC1).macros.lookup "m1").map
        (fun mac => mac.properties.lookup "k") = some (some "comp-value") ∧
      "comp-value" ≠ "macro-value" := ⟨rfl, by decide⟩

/-- Witness for C1's amended theorem at the concrete configuration. -/
theorem c1_component_overrides_macro_witness :
    ∃ mac, (processMacroNode cfgC1 dbEmpty mC1).macros.lookup "m1" = some mac ∧
      mac.properties =
        dictUpdate (cfgC1.macroParserFn "m1" "engine" "props-blob")
          (loadComponentPropertie cfgC1 "comp1") ∧
      ∀ k v, (loadComponentPropertie cfgC1 "comp1").lookup k = some v →
        mac.properties.lookup k = some v :=
  c1_component_overrides_macro cfgC1 dbEmpty mC1 "props-blob" "comp1" rfl rfl (by decide)

/-- C7, amended: (1) the resolver never requests a load for a name already
present when a step begins — the pending snapshot is filtered against the
record mapping; (2) the cycle `A → B → C → A` with one record per document
terminates with full success and exactly `A`, `B`, `C` present once each,
both in the mapping and in the per-type name list.  (What the original
claim wrongly adds — that a record is never replaced and a name never
duplicated — fails when a document loaded for one pending name redefines a
name loaded earlier in the same step, see the counterexample.) -/
theorem c7_step_memoisation_and_cycle :
    (∀ (db : DB) (ref : String),
        ref ∈ db.dependencies.filter (fun r => (db.macros.lookup r).isNone) →
        db.macros.lookup ref = none) ∧
    (resolveDependenciesFuel cfgCyc 4 dbCycA).map
        (fun r => (r.1, r.2.macros.map Prod.fst, r.2.macrosByType)) =
      some (true, ["A", "B", "C"], [("ship", ["A", "B", "C"])]) := by
  constructor
  · intro db ref href
    have h := List.of_mem_filter href
    simpa using h
  · rfl

/-- Witness for C7's step-memoisation statement at a concrete state. -/
theorem c7_step_memoisation_witness :
    (⟨[], [], ["D"]⟩ : DB).macros.lookup "D" = none :=
  c7_step_memoisation_and_cycle.1 ⟨[], [], ["D"]⟩ "D" (by decide)

/-- C7, counterexample: pending names `A2` and `B2`, where `A2`'s document
defines both `A2` and `B2`.  Within one resolution step `B2`'s own
document is still loaded afterwards: `B2`'s record is replaced (its
properties change) and its name is appended a second time to the type
`t` name list — records are NOT "never reloaded, never replaced, never
duplicated". -/
theorem c7_duplicate_reload_counterexample :
    (resolveStep cfgDup dbDup).1.macrosByType.lookup "t" =
        some ["A2", "B2", "B2"] ∧
      ((resolveStep cfgDup dbDup).1.macros.lookup "B2").map
          (fun mac => mac.properties) = some [("src", "second")] :=
  ⟨rfl, rfl⟩

/-- A lookup misses exactly when the key is not among the keys. -/
theorem lookup_none_iff {α : Type _} (d : List (String × α)) (k : String) :
    d.lookup k = none ↔ k ∉ d.map Prod.fst := by
  induction d with
  | nil => simp [List.lookup]
  | cons p rest ih =>
    obtain ⟨k', v'⟩ := p
    by_cases hk : k = k'
    · subst hk
      simp [List.lookup]
    · have hb : (k == k') = false := beq_eq_false_iff_ne.mpr hk
      simp [List.lookup, hb, hk, ih]

/-- A successful lookup returns a pair of the list. -/
theorem lookup_mem {α : Type _} {l : List (String × α)} {k : String} {v : α}
    (h : l.lookup k = some v) : (k, v) ∈ l := by
  induction l with
  | nil => simp [List.lookup] at h
  | cons p rest ih =>
    obtain ⟨k', v'⟩ := p
    by_cases hk : k = k'
    · subst hk
      simp only [List.lookup, beq_self_eq_true] at h
      injection h with hv
      rw [← hv]
      exact List.mem_cons_self _ _
    · have hb : (k == k') = false := beq_eq_false_iff_ne.mpr hk
      simp only [List.lookup, hb] at h
      exact List.mem_cons_of_mem _ (ih h)

/-- Assignment keeps every existing key. -/
theorem mem_keys_assocSet_of_mem {α : Type _} (d : List (String × α)) (k x : String)
    (v : α) (hx : x ∈ d.map Prod.fst) : x ∈ (assocSet d k v).map Prod.fst := by
  induction d with
  | nil => simp at hx
  | cons p rest ih =>
    obtain ⟨k', v'⟩ := p
    by_cases hk : k' = k
    · subst hk
      simpa [assocSet] using hx
    · simp only [List.map_cons, List.mem_cons] at hx
      simp only [assocSet, if_neg hk, List.map_cons, List.mem_cons]
      rcases hx with rfl | hx
      · exact Or.inl rfl
      · exact Or.inr (ih hx)

/-- Assignment establishes the assigned key. -/
theorem mem_keys_assocSet_self {α : Type _} (d : List (String × α)) (k : String)
    (v : α) : k ∈ (assocSet d k v).map Prod.fst := by
  induction d with
  | nil => simp [assocSet]
  | cons p rest ih =>
    obtain ⟨k', v'⟩ := p
    by_cases hk : k' = k
    · subst hk
      simp [assocSet]
    · simp only [assocSet, if_neg hk, List.map_cons, List.mem_cons]
      exact Or.inr ih

/-- `set.add` keeps existing members. -/
theorem mem_addDep_of_mem (deps : List String) (n x : String) (hx : x ∈ deps) :
    x ∈ addDep deps n := by
  unfold addDep
  split
  · exact hx
  · exact List.mem_append_left _ hx

/-- `set.add` adds nothing but the given name. -/
theorem mem_addDep_sub (deps : List String) (n x : String) (hx : x ∈ addDep deps n) :
    x ∈ deps ∨ x = n := by
  unfold addDep at hx
  split at hx
  · exact Or.inl hx
  · simpa using hx

/-- Membership after `set.discard`. -/
theorem mem_removeDep_iff (deps : List String) (n x : String) :
    x ∈ removeDep deps n ↔ x ∈ deps ∧ x ≠ n := by
  simp [removeDep, List.mem_filter]

/-- The inner connection fold only ever grows the pending component. -/
theorem connRefsFold_deps_mono (db : DB) (cnref x : String) :
    ∀ (refs : List String) (acc : List (String × String) × List String),
      x ∈ acc.2 → x ∈ (connRefsFold db cnref acc refs).2 := by
  intro refs
  induction refs with
  | nil => intro acc h; exact h
  | cons r rs ih =>
    intro acc h
    refine ih _ ?_
    dsimp only
    split
    · exact h
    · exact mem_addDep_of_mem _ _ _ h

/-- Everything the inner fold adds is a referenced name that is not yet
in the mapping. -/
theorem connRefsFold_deps_sub (db : DB) (cnref x : String) :
    ∀ (refs : List String) (acc : List (String × String) × List String),
      x ∈ (connRefsFold db cnref acc refs).2 →
      x ∈ acc.2 ∨ (x ∈ refs ∧ db.macros.lookup x = none) := by
  intro refs
  induction refs with
  | nil => intro acc h; exact Or.inl h
  | cons r rs ih =>
    intro acc h
    rcases ih _ h with h1 | ⟨h2, h3⟩
    · dsimp only at h1
      split at h1
      · exact Or.inl h1
      · rename_i hr
        rcases mem_addDep_sub _ _ _ h1 with h4 | rfl
        · exact Or.inl h4
        · exact Or.inr ⟨List.mem_cons_self _ _,
            Option.not_isSome_iff_eq_none.mp hr⟩
    · exact Or.inr ⟨List.mem_cons_of_mem _ h2, h3⟩

/-- The outer connection fold only ever grows the pending component. -/
theorem connsFoldAux_deps_mono (db : DB) (x : String) :
    ∀ (conns : List ConnNode) (acc : List (String × String) × List String),
      x ∈ acc.2 → x ∈ (connsFoldAux db acc conns).2 := by
  intro conns
  induction conns with
  | nil => intro acc h; exact h
  | cons cn rest ih =>
    intro acc h
    exact ih _ (connRefsFold_deps_mono db cn.ref x cn.macroRefs acc h)

/-- Everything the outer fold adds is a referenced name of one of the
connection nodes, and was not in the mapping. -/
theorem connsFoldAux_deps_sub (db : DB) (x : String) :
    ∀ (conns : List ConnNode) (acc : List (String × String) × List String),
      x ∈ (connsFoldAux db acc conns).2 →
      x ∈ acc.2 ∨
        (x ∈ conns.flatMap (fun cn => cn.macroRefs) ∧ db.macros.lookup x = none) := by
  intro conns
  induction conns with
  | nil => intro acc h; exact Or.inl h
  | cons cn rest ih =>
    intro acc h
    rcases ih _ h with h1 | ⟨h2, h3⟩
    · rcases connRefsFold_deps_sub db cn.ref x cn.macroRefs acc h1 with h4 | ⟨h5, h6⟩
      · exact Or.inl h4
      · refine Or.inr ⟨?_, h6⟩
        rw [List.flatMap_cons]
        exact List.mem_append_left _ h5
    · refine Or.inr ⟨?_, h3⟩
      rw [List.flatMap_cons]
      exact List.mem_append_right _ h2

/-- Node processing keeps every defined name (`self.macros[name] = macro`
only replaces or appends). -/
theorem processMacroNode_names_mono (cfg : Config) (db : DB) (m : MacroNode)
    (x : String) (hx : x ∈ macroNames db) :
    x ∈ macroNames (processMacroNode cfg db m) :=
  mem_keys_assocSet_of_mem _ _ _ _ hx

/-- Node processing defines the node's name. -/
theorem processMacroNode_name_defined (cfg : Config) (db : DB) (m : MacroNode) :
    m.name ∈ macroNames (processMacroNode cfg db m) :=
  mem_keys_assocSet_self _ _ _

/-- Node processing keeps every pending name other than the node's own. -/
theorem processMacroNode_deps_keep (cfg : Config) (db : DB) (m : MacroNode)
    (x : String) (hx : x ∈ db.dependencies) (hne : x ≠ m.name) :
    x ∈ (processMacroNode cfg db m).dependencies := by
  show x ∈ removeDep (connsFold db m.conns).2 m.name
  rw [mem_removeDep_iff]
  exact ⟨connsFoldAux_deps_mono db x m.conns _ hx, hne⟩

/-- Node processing adds only names referenced by the node. -/
theorem processMacroNode_deps_sub (cfg : Config) (db : DB) (m : MacroNode)
    (x : String) (hx : x ∈ (processMacroNode cfg db m).dependencies) :
    x ∈ db.dependencies ∨ x ∈ macroRefsOf m := by
  have hx' : x ∈ (connsFold db m.conns).2 ∧ x ≠ m.name := by
    rw [← mem_removeDep_iff]
    exact hx
  rcases connsFoldAux_deps_sub db x m.conns _ hx'.1 with h | ⟨h, _⟩
  · exact Or.inl h
  · exact Or.inr h

/-- A pending name that node processing removed got defined by it. -/
theorem processMacroNode_deps_removed (cfg : Config) (db : DB) (m : MacroNode)
    (x : String) (hx : x ∈ db.dependencies)
    (hout : x ∉ (processMacroNode cfg db m).dependencies) :
    x ∈ macroNames (processMacroNode cfg db m) := by
  by_cases hne : x = m.name
  · subst hne
    exact processMacroNode_name_defined cfg db m
  · exact absurd (processMacroNode_deps_keep cfg db m x hx hne) hout

/-- Node processing preserves the state invariant: pending names are not
in the mapping. -/
theorem processMacroNode_inv (cfg : Config) (db : DB) (m : MacroNode)
    (hI : ∀ y ∈ db.dependencies, db.macros.lookup y = none) :
    ∀ y ∈ (processMacroNode cfg db m).dependencies,
      (processMacroNode cfg db m).macros.lookup y = none := by
  intro y hy
  have hy' : y ∈ (connsFold db m.conns).2 ∧ y ≠ m.name := by
    rw [← mem_removeDep_iff]
    exact hy
  have hnone : db.macros.lookup y = none := by
    rcases connsFoldAux_deps_sub db y m.conns _ hy'.1 with h | ⟨_, h⟩
    · exact hI y h
    · exact h
  show (assocSet db.macros m.name _).lookup y = none
  rw [assocSet_lookup_ne _ _ hy'.2]
  exact hnone

/-- Node processing of a differently named node does not define `d`. -/
theorem processMacroNode_lookup_ne (cfg : Config) (db : DB) (m : MacroNode)
    (d : String) (hne : m.name ≠ d) (h : db.macros.lookup d = none) :
    (processMacroNode cfg db m).macros.lookup d = none := by
  show (assocSet db.macros m.name _).lookup d = none
  rw [assocSet_lookup_ne _ _ (Ne.symm hne)]
  exact h

/-- The properties above, lifted over the node list of one document. -/
theorem nodesFold_names_mono (cfg : Config) (x : String) :
    ∀ (nodes : List MacroNode) (db : DB), x ∈ macroNames db →
      x ∈ macroNames (nodes.foldl (processMacroNode cfg) db) := by
  intro nodes
  induction nodes with
  | nil => intro db h; exact h
  | cons m rest ih =>
    intro db h
    exact ih _ (processMacroNode_names_mono cfg db m x h)

theorem nodesFold_deps_or_defined (cfg : Config) (x : String) :
    ∀ (nodes : List MacroNode) (db : DB),
      x ∈ db.dependencies ∨ x ∈ macroNames db →
      x ∈ (nodes.foldl (processMacroNode cfg) db).dependencies ∨
        x ∈ macroNames (nodes.foldl (processMacroNode cfg) db) := by
  intro nodes
  induction nodes with
  | nil => intro db h; exact h
  | cons m rest ih =>
    intro db h
    refine ih _ ?_
    rcases h with h | h
    · by_cases hne : x = m.name
      · subst hne
        exact Or.inr (processMacroNode_name_defined cfg db m)
      · exact Or.inl (processMacroNode_deps_keep cfg db m x h hne)
    · exact Or.inr (processMacroNode_names_mono cfg db m x h)

theorem nodesFold_deps_sub (cfg : Config) (x : String) :
    ∀ (nodes : List MacroNode) (db : DB),
      x ∈ (nodes.foldl (processMacroNode cfg) db).dependencies →
      x ∈ db.dependencies ∨ x ∈ nodes.flatMap macroRefsOf := by
  intro nodes
  induction nodes with
  | nil => intro db h; exact Or.inl h
  | cons m rest ih =>
    intro db h
    rcases ih _ h with h1 | h1
    · rcases processMacroNode_deps_sub cfg db m x h1 with h2 | h2
      · exact Or.inl h2
      · refine Or.inr ?_
        rw [List.flatMap_cons]
        exact List.mem_append_left _ h2
    · refine Or.inr ?_
      rw [List.flatMap_cons]
      exact List.mem_append_right _ h1

theorem nodesFold_inv (cfg : Config) :
    ∀ (nodes : List MacroNode) (db : DB),
      (∀ y ∈ db.dependencies, db.macros.lookup y = none) →
      ∀ y ∈ (nodes.foldl (processMacroNode cfg) db).dependencies,
        (nodes.foldl (processMacroNode cfg) db).macros.lookup y = none := by
  intro nodes
  induction nodes with
  | nil => intro db h; exact h
  | cons m rest ih =>
    intro db h
    exact ih _ (processMacroNode_inv cfg db m h)

theorem nodesFold_lookup_ne (cfg : Config) (d : String) :
    ∀ (nodes : List MacroNode) (db : DB), (∀ mn ∈ nodes, mn.name ≠ d) →
      db.macros.lookup d = none →
      (nodes.foldl (processMacroNode cfg) db).macros.lookup d = none := by
  intro nodes
  induction nodes with
  | nil => intro db _ h; exact h
  | cons m rest ih =>
    intro db hnd h
    exact ih _ (fun mn hmn => hnd mn (List.mem_cons_of_mem _ hmn))
      (processMacroNode_lookup_ne cfg db m d (hnd m (List.mem_cons_self _ _)) h)

theorem nodesFold_deps_keep (cfg : Config) (d : String) :
    ∀ (nodes : List MacroNode) (db : DB), (∀ mn ∈ nodes, mn.name ≠ d) →
      d ∈ db.dependencies →
      d ∈ (nodes.foldl (processMacroNode cfg) db).dependencies := by
  intro nodes
  induction nodes with
  | nil => intro db _ h; exact h
  | cons m rest ih =>
    intro db hnd h
    exact ih _ (fun mn hmn => hnd mn (List.mem_cons_of_mem _ hmn))
      (processMacroNode_deps_keep cfg db m d h
        (fun he => hnd m (List.mem_cons_self _ _) he.symm))

/-- One item of the pending-load fold either leaves the state unchanged
(no resolvable or existing path) or runs the node fold of a document of
the filesystem. -/
theorem loadStep_cases (cfg : Config) (acc : DB) (ref : String) :
    (match (cfg.macroPathResolver ref).find? (fun p => cfg.fileExists p) with
      | some path => (loadMacroXmlFile cfg acc path).getD acc
      | none => acc) = acc ∨
    ∃ path doc, cfg.fs.lookup path = some doc ∧
      (match (cfg.macroPathResolver ref).find? (fun p => cfg.fileExists p) with
        | some path => (loadMacroXmlFile cfg acc path).getD acc
        | none => acc) = doc.macroNodes.foldl (processMacroNode cfg) acc := by
  cases hf : (cfg.macroPathResolver ref).find? (fun p => cfg.fileExists p) with
  | none => exact Or.inl rfl
  | some path =>
    cases hl : cfg.fs.lookup path with
    | none => exact Or.inl (by simp [loadMacroXmlFile, hl])
    | some doc => exact Or.inr ⟨path, doc, hl, by simp [loadMacroXmlFile, hl]⟩

/-- Any property preserved by document node folds is preserved by the
whole pending-load fold. -/
theorem loadPending_pred (cfg : Config) (P : DB → Prop)
    (hstep : ∀ acc path doc, cfg.fs.lookup path = some doc → P acc →
      P (doc.macroNodes.foldl (processMacroNode cfg) acc)) :
    ∀ (pending : List String) (db : DB), P db → P (loadPending cfg db pending) := by
  intro pending
  induction pending with
  | nil => intro db h; exact h
  | cons ref rest ih =>
    intro db h
    show P (loadPending cfg _ rest)
    refine ih _ ?_
    dsimp only
    rcases loadStep_cases cfg db ref with heq | ⟨path, doc, hl, heq⟩
    · rw [heq]
      exact h
    · rw [heq]
      exact hstep db path doc hl h

/-- Refs of a document of the filesystem are in the global ref pool. -/
theorem docRefs_sub_allRefs (cfg : Config) {path : String} {doc : GameDoc}
    (h : cfg.fs.lookup path = some doc) :
    ∀ x ∈ docRefs doc, x ∈ allRefs cfg := by
  intro x hx
  unfold allRefs
  rw [List.mem_flatMap]
  exact ⟨(path, doc), lookup_mem h, hx⟩

/-- The first component of `_resolve_step`, by definition. -/
theorem resolveStep_fst (cfg : Config) (db : DB) :
    (resolveStep cfg db).1 =
      loadPending cfg { db with dependencies := stepPending db } (stepPending db) := rfl

/-- Defined names only grow across a resolution step. -/
theorem resolveStep_names_mono (cfg : Config) (db : DB) (x : String)
    (hx : x ∈ macroNames db) : x ∈ macroNames (resolveStep cfg db).1 := by
  rw [resolveStep_fst]
  exact loadPending_pred cfg (fun s => x ∈ macroNames s)
    (fun acc path doc hl h => nodesFold_names_mono cfg x _ acc h) _ _ hx

/-- A pending name either survives the step or ends up defined. -/
theorem resolveStep_mem_or_defined (cfg : Config) (db : DB) (x : String)
    (hx : x ∈ db.dependencies) :
    x ∈ (resolveStep cfg db).1.dependencies ∨
      x ∈ macroNames (resolveStep cfg db).1 := by
  by_cases hdone : db.macros.lookup x = none
  · rw [resolveStep_fst]
    refine loadPending_pred cfg (fun s => x ∈ s.dependencies ∨ x ∈ macroNames s)
      (fun acc path doc hl h => nodesFold_deps_or_defined cfg x _ acc h) _ _ ?_
    left
    show x ∈ stepPending db
    rw [stepPending, List.mem_filter]
    exact ⟨hx, by simp [hdone]⟩
  · right
    refine resolveStep_names_mono cfg db x ?_
    exact not_not.mp (fun hk => hdone ((lookup_none_iff _ _).mpr hk))

/-- New pending names of a step come from the filesystem's ref pool. -/
theorem resolveStep_deps_sub (cfg : Config) (db : DB) (x : String)
    (hx : x ∈ (resolveStep cfg db).1.dependencies) :
    x ∈ db.dependencies ∨ x ∈ allRefs cfg := by
  rw [resolveStep_fst] at hx
  refine loadPending_pred cfg
    (fun s => ∀ z ∈ s.dependencies, z ∈ db.dependencies ∨ z ∈ allRefs cfg)
    ?_ _ _ ?_ x hx
  · intro acc path doc hl h z hz
    rcases nodesFold_deps_sub cfg z _ acc hz with h1 | h1
    · exact h z h1
    · exact Or.inr (docRefs_sub_allRefs cfg hl z h1)
  · intro z hz
    exact Or.inl (List.mem_of_mem_filter hz)

/-- A resolution step re-establishes the invariant that pending names are
not yet in the mapping, whatever the input state. -/
theorem resolveStep_inv (cfg : Config) (db : DB) :
    ∀ y ∈ (resolveStep cfg db).1.dependencies,
      (resolveStep cfg db).1.macros.lookup y = none := by
  rw [resolveStep_fst]
  refine loadPending_pred cfg
    (fun s => ∀ y ∈ s.dependencies, s.macros.lookup y = none)
    (fun acc path doc hl h => nodesFold_inv cfg _ acc h) _ _ ?_
  intro y hy
  have hy' : y ∈ stepPending db := hy
  rw [stepPending, List.mem_filter] at hy'
  simpa using hy'.2

/-- The change flag of `_resolve_step` in terms of membership. -/
theorem resolveStep_unchanged_iff (cfg : Config) (db : DB) :
    (resolveStep cfg db).2 = false ↔
      ((∀ x ∈ stepPending db, x ∈ (resolveStep cfg db).1.dependencies) ∧
       (∀ x ∈ (resolveStep cfg db).1.dependencies, x ∈ stepPending db)) := by
  have h2 : (resolveStep cfg db).2 =
      !((stepPending db).all (fun x => (resolveStep cfg db).1.dependencies.contains x) &&
        (resolveStep cfg db).1.dependencies.all (fun x => (stepPending db).contains x)) := rfl
  rw [h2]
  simp [List.all_eq_true]

/-- A changing step leaves the two pending sets with different members. -/
theorem resolveStep_changed_true (cfg : Config) (db : DB)
    (hch : (resolveStep cfg db).2 = true) :
    ¬ ((∀ x ∈ stepPending db, x ∈ (resolveStep cfg db).1.dependencies) ∧
       (∀ x ∈ (resolveStep cfg db).1.dependencies, x ∈ stepPending db)) := by
  intro hc
  have h := (resolveStep_unchanged_iff cfg db).mpr hc
  rw [hch] at h
  cases h

/-- The key step of the termination argument: a changing step strictly
decreases `dbMeasure` — either a new name of the universe `U` got
defined, or (the defined set standing still inside `U`) the pending set
strictly grew inside `U`. -/
theorem resolveStep_measure_lt (cfg : Config) (U : Finset String)
    (hUr : ∀ r ∈ allRefs cfg, r ∈ U) (db : DB)
    (hU : ∀ x ∈ db.dependencies, x ∈ U)
    (hI : ∀ y ∈ db.dependencies, db.macros.lookup y = none)
    (hch : (resolveStep cfg db).2 = true) :
    dbMeasure U (resolveStep cfg db).1 < dbMeasure U db := by
  have hpend : stepPending db = db.dependencies := by
    rw [stepPending]
    refine List.filter_eq_self.mpr ?_
    intro a ha
    simp [hI a ha]
  have hmono : ∀ x ∈ macroNames db, x ∈ macroNames (resolveStep cfg db).1 :=
    fun x hx => resolveStep_names_mono cfg db x hx
  by_cases hA : ∃ w ∈ U, w ∈ macroNames (resolveStep cfg db).1 ∧ w ∉ macroNames db
  · obtain ⟨w, hwU, hw', hw⟩ := hA
    have hsub : U \ (macroNames (resolveStep cfg db).1).toFinset ⊆
        U \ (macroNames db).toFinset := by
      intro v hv
      simp only [Finset.mem_sdiff, List.mem_toFinset] at hv ⊢
      exact ⟨hv.1, fun hmem => hv.2 (hmono v hmem)⟩
    have hssub : U \ (macroNames (resolveStep cfg db).1).toFinset ⊂
        U \ (macroNames db).toFinset := by
      refine (Finset.ssubset_iff_of_subset hsub).mpr ?_
      refine ⟨w, ?_, ?_⟩
      · simp only [Finset.mem_sdiff, List.mem_toFinset]
        exact ⟨hwU, hw⟩
      · simp only [Finset.mem_sdiff, List.mem_toFinset]
        intro hcon
        exact hcon.2 hw'
    have hm := Finset.card_lt_card hssub
    have hs' : (U \ (resolveStep cfg db).1.dependencies.toFinset).card ≤ U.card :=
      Finset.card_le_card Finset.sdiff_subset
    unfold dbMeasure
    have h1 : (U \ (macroNames (resolveStep cfg db).1).toFinset).card + 1 ≤
        (U \ (macroNames db).toFinset).card := hm
    have hmul := Nat.mul_le_mul_right (U.card + 1) h1
    rw [Nat.succ_mul] at hmul
    linarith
  · push_neg at hA
    have hDD : ∀ x ∈ db.dependencies, x ∈ (resolveStep cfg db).1.dependencies := by
      intro x hx
      rcases resolveStep_mem_or_defined cfg db x hx with h | h
      · exact h
      · exfalso
        have hxnames := hA x (hU x hx) h
        have hn := hI x hx
        rw [lookup_none_iff] at hn
        exact hn hxnames
    have hne := resolveStep_changed_true cfg db hch
    have hfirst : ∀ x ∈ stepPending db, x ∈ (resolveStep cfg db).1.dependencies := by
      rw [hpend]
      exact hDD
    have hsecond : ¬ ∀ x ∈ (resolveStep cfg db).1.dependencies, x ∈ stepPending db :=
      fun hs => hne ⟨hfirst, hs⟩
    push_neg at hsecond
    obtain ⟨z, hz, hznot⟩ := hsecond
    rw [hpend] at hznot
    have hzU : z ∈ U := by
      rcases resolveStep_deps_sub cfg db z hz with h | h
      · exact absurd h hznot
      · exact hUr z h
    have hnames_eq : U \ (macroNames (resolveStep cfg db).1).toFinset =
        U \ (macroNames db).toFinset := by
      ext w
      simp only [Finset.mem_sdiff, List.mem_toFinset]
      constructor
      · rintro ⟨hwU, hw⟩
        exact ⟨hwU, fun hmem => hw (hmono w hmem)⟩
      · rintro ⟨hwU, hw⟩
        exact ⟨hwU, fun hmem => hw (hA w hwU hmem)⟩
    have hssub : U \ (resolveStep cfg db).1.dependencies.toFinset ⊂
        U \ db.dependencies.toFinset := by
      refine (Finset.ssubset_iff_of_subset ?_).mpr ?_
      · intro v hv
        simp only [Finset.mem_sdiff, List.mem_toFinset] at hv ⊢
        exact ⟨hv.1, fun hmem => hv.2 (hDD v hmem)⟩
      · refine ⟨z, ?_, ?_⟩
        · simp only [Finset.mem_sdiff, List.mem_toFinset]
          exact ⟨hzU, hznot⟩
        · simp only [Finset.mem_sdiff, List.mem_toFinset]
          intro hcon
          exact hcon.2 hz
    have hcard := Finset.card_lt_card hssub
    unfold dbMeasure
    rw [hnames_eq]
    exact Nat.add_lt_add_left hcard _

/-- The resolution loop always exits: any fuel bound above the measure of
the state (over a universe covering the pending names and the
filesystem's refs) suffices. -/
theorem resolveDependencies_terminates (cfg : Config) (U : Finset String)
    (hUr : ∀ r ∈ allRefs cfg, r ∈ U) :
    ∀ (bound : Nat) (db : DB), dbMeasure U db ≤ bound →
      (∀ x ∈ db.dependencies, x ∈ U) →
      (∀ y ∈ db.dependencies, db.macros.lookup y = none) →
      ∃ n r, resolveDependenciesFuel cfg n db = some r := by
  intro bound
  induction bound with
  | zero =>
    intro db hm hU hI
    by_cases hemp : db.dependencies.isEmpty
    · exact ⟨1, (true, db), by simp [resolveDependenciesFuel, hemp]⟩
    · cases hch : (resolveStep cfg db).2 with
      | false =>
        refine ⟨1, ((resolveStep cfg db).1.dependencies.isEmpty, (resolveStep cfg db).1), ?_⟩
        simp [resolveDependenciesFuel, hemp, hch]
      | true =>
        have := resolveStep_measure_lt cfg U hUr db hU hI hch
        omega
  | succ b ih =>
    intro db hm hU hI
    by_cases hemp : db.dependencies.isEmpty
    · exact ⟨1, (true, db), by simp [resolveDependenciesFuel, hemp]⟩
    · cases hch : (resolveStep cfg db).2 with
      | false =>
        refine ⟨1, ((resolveStep cfg db).1.dependencies.isEmpty, (resolveStep cfg db).1), ?_⟩
        simp [resolveDependenciesFuel, hemp, hch]
      | true =>
        have hlt := resolveStep_measure_lt cfg U hUr db hU hI hch
        have hU' : ∀ x ∈ (resolveStep cfg db).1.dependencies, x ∈ U := by
          intro x hx
          rcases resolveStep_deps_sub cfg db x hx with h | h
          · exact hU x h
          · exact hUr x h
        obtain ⟨n, r, hr⟩ := ih (resolveStep cfg db).1 (by omega) hU' (resolveStep_inv cfg db)
        refine ⟨n + 1, r, ?_⟩
        simp [resolveDependenciesFuel, hemp, hch, hr]

/-- A pending name no document defines stays pending and undefined
across a resolution step. -/
theorem resolveStep_keeps_unresolvable (cfg : Config) (db : DB) (d : String)
    (hnd : ∀ path doc, cfg.fs.lookup path = some doc →
      ∀ mn ∈ doc.macroNodes, mn.name ≠ d)
    (hd : d ∈ db.dependencies) (hdn : db.macros.lookup d = none) :
    d ∈ (resolveStep cfg db).1.dependencies ∧
      (resolveStep cfg db).1.macros.lookup d = none := by
  rw [resolveStep_fst]
  refine loadPending_pred cfg
    (fun s => d ∈ s.dependencies ∧ s.macros.lookup d = none) ?_ _ _ ?_
  · intro acc path doc hl h
    exact ⟨nodesFold_deps_keep cfg d _ acc (hnd path doc hl) h.1,
      nodesFold_lookup_ne cfg d _ acc (hnd path doc hl) h.2⟩
  · refine ⟨?_, hdn⟩
    show d ∈ stepPending db
    rw [stepPending, List.mem_filter]
    exact ⟨hd, by simp [hdn]⟩

/-- C4, amended: if the pending set contains a name `d` whose candidate
paths cannot be resolved or do not exist AND no loadable document defines
a macro named `d` (without the latter condition the claim fails, see the
counterexample), then — the state satisfying the resolver invariant that
pending names are not yet loaded — `resolve_dependencies` still
terminates, returns partial failure (`False`), and `d` is absent from the
final record mapping (and still reported pending). -/
theorem c4_unresolvable_reference_amended (cfg : Config) (db : DB) (d : String)
    (hd : d ∈ db.dependencies)
    (_hpaths : ∀ p ∈ cfg.macroPathResolver d, cfg.fileExists p = false)
    (hnd : ∀ path doc, cfg.fs.lookup path = some doc →
      ∀ mn ∈ doc.macroNodes, mn.name ≠ d)
    (hI : ∀ y ∈ db.dependencies, db.macros.lookup y = none) :
    (∃ n r, resolveDependenciesFuel cfg n db = some r) ∧
    (∀ n b db', resolveDependenciesFuel cfg n db = some (b, db') →
      b = false ∧ db'.macros.lookup d = none ∧ d ∈ db'.dependencies) := by
  constructor
  · refine resolveDependencies_terminates cfg
      (db.dependencies.toFinset ∪ (allRefs cfg).toFinset) ?_
      (dbMeasure (db.dependencies.toFinset ∪ (allRefs cfg).toFinset) db) db
      le_rfl ?_ hI
    · intro r hr
      simp [List.mem_toFinset, hr]
    · intro x hx
      simp [List.mem_toFinset, hx]
  · have main : ∀ (n : Nat) (db0 : DB), d ∈ db0.dependencies →
        db0.macros.lookup d = none →
        ∀ b db', resolveDependenciesFuel cfg n db0 = some (b, db') →
          b = false ∧ db'.macros.lookup d = none ∧ d ∈ db'.dependencies := by
      intro n
      induction n with
      | zero =>
        intro db0 _ _ b db' h
        simp [resolveDependenciesFuel] at h
      | succ k ih =>
        intro db0 hd0 hdn0 b db' h
        have hemp : db0.dependencies.isEmpty = false := by
          cases hdeps : db0.dependencies with
          | nil =>
            rw [hdeps] at hd0
            simp at hd0
          | cons a l => rfl
        rw [resolveDependenciesFuel] at h
        simp only [hemp, Bool.false_eq_true, if_false] at h
        obtain ⟨h1, h2⟩ := resolveStep_keeps_unresolvable cfg db0 d hnd hd0 hdn0
        cases hch : (resolveStep cfg db0).2 with
        | true =>
          rw [hch] at h
          simp only [if_true] at h
          exact ih (resolveStep cfg db0).1 h1 h2 b db' h
        | false =>
          rw [hch] at h
          simp only [Bool.false_eq_true, if_false, Option.some.injEq,
            Prod.mk.injEq] at h
          obtain ⟨hb, hdb⟩ := h
          subst hdb
          have hne : (resolveStep cfg db0).1.dependencies ≠ [] :=
            List.ne_nil_of_mem h1
          refine ⟨?_, h2, h1⟩
          rw [← hb]
          cases hdeps : (resolveStep cfg db0).1.dependencies with
          | nil => exact absurd hdeps hne
          | cons a l => rfl
    intro n b db' h
    exact main n db hd (hI d hd) b db' h

/-- C4, counterexample to the claim as stated: `D`'s candidate paths do
not resolve to anything, yet `E`'s document defines both `E` and `D`; the
run returns FULL SUCCESS and `D` IS present in the final mapping —
against "returns partial failure (False), and that name is absent". -/
theorem c4_unresolvable_reference_counterexample :
    (∀ p ∈ cfgC4.macroPathResolver "D", cfgC4.fileExists p = false) ∧
    (resolveDependenciesFuel cfgC4 3 dbC4).map
        (fun r => (r.1, (r.2.macros.lookup "D").isSome)) = some (true, true) := by
  constructor
  · intro p hp
    simp [cfgC4] at hp
  · rfl

/-- Witness for C4's amended theorem: one permanently unresolvable name
over an empty filesystem. -/
theorem c4_unresolvable_reference_amended_witness :
    (∃ n r, resolveDependenciesFuel cfgC4W n dbC4W = some r) ∧
    (∀ n b db', resolveDependenciesFuel cfgC4W n dbC4W = some (b, db') →
      b = false ∧ db'.macros.lookup "D" = none ∧ "D" ∈ db'.dependencies) :=
  c4_unresolvable_reference_amended cfgC4W dbC4W "D" (by decide)
    (fun p hp => by simp [cfgC4W] at hp)
    (fun path doc h => by simp [cfgC4W, List.lookup] at h)
    (fun y hy => rfl)

end MacrosDB

end X4F
